import Mathlib

/-!
# go-iban: a shallow embedding of the IBAN validation pipeline

Source files embedded here: `iban.go` (`ParseIBAN`), `check.go`
(`validateCheckDigits`) and `countries.go` (`countries`, `compileFormat`,
`validateBasicBankAccountNumber`).

Modelling conventions.

* A Go `string` is a `List Char` (its sequence of code points).  Go indexes and
  measures strings in bytes; every `len` and every slice expression of the
  source is evaluated on a string that already passed the `^[0-9A-Z]*$` gate
  (or on a piece of one), where bytes and code points coincide.  Strings that
  are not valid UTF-8 are outside the model.
* A run-time panic (slice bounds out of range) is the value `none` of the
  outer `Option`; an `error` return value is an `Error`.
* `big.Int` is `Int`; Go `int` values here are lengths and two-digit counts and
  are `Nat`.
* The process-wide map `countries` is threaded explicitly as a `Registry`
  value, because `validateBasicBankAccountNumber` stores the compiled
  expression in the entry it is called on.
* The non-ASCII part of the Unicode upper-case table used by `strings.ToUpper`
  belongs to the Go standard library, not to this repository; it is the
  parameter `up` of everything that normalizes its input.
-/

namespace Iban

/-! ## Character classes of the regular expressions in the source -/

/-- The class `[0-9]`, also written `\d` in the source. -/
def isDigit (c : Char) : Bool := decide (48 ≤ c.toNat) && decide (c.toNat ≤ 57)

/-- The class `[A-Z]`, also written `[[:upper:]]` in the source. -/
def isUpper (c : Char) : Bool := decide (65 ≤ c.toNat) && decide (c.toNat ≤ 90)

/-- The class `[a-z]`. -/
def isLower (c : Char) : Bool := decide (97 ≤ c.toNat) && decide (c.toNat ≤ 122)

/-- The class `\s` of Go regular expressions: tab, newline, form feed,
carriage return and space (code points 9, 10, 12, 13, 32). -/
def isSpace (c : Char) : Bool :=
  decide (c.toNat = 9) || decide (c.toNat = 10) || decide (c.toNat = 12) ||
    decide (c.toNat = 13) || decide (c.toNat = 32)

/-- The class `[0-9A-Z]` of `numUpperOnly`. -/
def isNumUpper (c : Char) : Bool := isDigit c || isUpper c

/-! ## Slices -/

/-- Go `s[lo:hi]`: panics (here `none`) unless `lo ≤ hi ≤ len(s)`. -/
def slice (s : List Char) (lo hi : Nat) : Option (List Char) :=
  if lo ≤ hi ∧ hi ≤ s.length then some ((s.take hi).drop lo) else none

/-- Go `s[lo:]`: panics (here `none`) unless `lo ≤ len(s)`. -/
def sliceFrom (s : List Char) (lo : Nat) : Option (List Char) :=
  if lo ≤ s.length then some (s.drop lo) else none

/-- Go `s[:hi]`: panics (here `none`) unless `hi ≤ len(s)`. -/
def sliceTo (s : List Char) (hi : Nat) : Option (List Char) :=
  if hi ≤ s.length then some (s.take hi) else none

/-! ## Errors and results -/

/-- The error values of the package.  `errLength` is the `fmt.Errorf` of the
length gate with its three arguments; `errAtoi`, `errRegexp` and
`errFailedToValidate` are the `fmt.Errorf` values of `compileFormat` and of
`validateBasicBankAccountNumber` on a layout that does not compile. -/
inductive Error where
  | errAlphaNumOnly
  | errCountryCodeOrCheckDigits
  | ErrUnsupportedCountryCode
  | errLength (actual expected : Nat) (countryCode : List Char)
  | errBBANMalformat
  | errFailed
  | errCheckDigits
  | errAtoi (field : List Char)
  | errRegexp
  | errFailedToValidate (cause : Error)
  deriving DecidableEq, Repr

deriving instance DecidableEq for Except

/-- The struct `IBAN` of `iban.go`. -/
structure IBAN where
  Code : List Char
  PrintCode : List Char
  CountryCode : List Char
  CheckDigits : List Char
  BBAN : List Char
  deriving DecidableEq, Repr

/-! ## Normalization: `allWhiteSpaces.ReplaceAllString` and `strings.ToUpper` -/

/-- The call `allWhiteSpaces.ReplaceAllString(s, "")` with `allWhiteSpaces` the
expression `\s+`: every maximal run of white space is replaced by the empty
string, which deletes exactly the white-space characters. -/
def allWhiteSpaces.ReplaceAllString (s : List Char) : List Char :=
  s.filter (fun c => !isSpace c)

/-- Go `unicode.ToUpper` on one code point: below 128 the letters `a`..`z`
move down by 32 and every other code point is kept; from 128 on the Unicode
table `up` decides. -/
def toUpperRune (up : Char → Char) (c : Char) : Char :=
  if c.toNat < 128 then
    if isLower c then Char.ofNat (c.toNat - 32) else c
  else up c

/-- Go `strings.ToUpper`. -/
def ToUpper (up : Char → Char) (s : List Char) : List Char :=
  s.map (toUpperRune up)

/-- The first two statements of `ParseIBAN`: white space removed, then
upper-cased. -/
def normalize (up : Char → Char) (s : List Char) : List Char :=
  ToUpper up (allWhiteSpaces.ReplaceAllString s)

/-- The call `numUpperOnly.MatchString(s)` with `numUpperOnly` the expression
`^[0-9A-Z]*$`. -/
def numUpperOnly.MatchString (s : List Char) : Bool := s.all isNumUpper

/-- The call `twoUpperTwoDigits.FindString(s)` with `twoUpperTwoDigits` the
expression `^[[:upper:]]{2}\d{2}`: the four-character match at the start of
`s`, or the empty string when there is none. -/
def twoUpperTwoDigits.FindString (s : List Char) : List Char :=
  match s with
  | a :: b :: c :: d :: _ =>
    if isUpper a && isUpper b && isDigit c && isDigit d then [a, b, c, d] else []
  | _ => []

/-! ## `countries.go`: layouts and their compiled expressions -/

/-- The seven class letters of a layout token, named as in the `switch` of
`compileFormat`. -/
inductive CharClass where
  | F | L | U | A | B | C | W
  deriving DecidableEq, Repr

/-- The bracket expression `compileFormat` writes for each class letter:
`F` is `[0-9]`, `L` is `[a-z]`, `U` is `[A-Z]`, `A` is `[0-9A-Za-z]`, `B` is
`[0-9A-Z]`, `C` is `[A-Za-z]` and `W` is `[0-9a-z]`. -/
def CharClass.mem : CharClass → Char → Bool
  | .F, c => isDigit c
  | .L, c => isLower c
  | .U, c => isUpper c
  | .A, c => isDigit c || isUpper c || isLower c
  | .B, c => isDigit c || isUpper c
  | .C, c => isUpper c || isLower c
  | .W, c => isDigit c || isLower c

/-- The `case` labels of the `switch ps[:1]` in `compileFormat`. -/
def classOfLetter (c : Char) : Option CharClass :=
  if c = 'F' then some .F
  else if c = 'L' then some .L
  else if c = 'U' then some .U
  else if c = 'A' then some .A
  else if c = 'B' then some .B
  else if c = 'C' then some .C
  else if c = 'W' then some .W
  else none

/-- A compiled `*regexp.Regexp` of the shape `compileFormat` produces: the
concatenation, in order, of items `[class]{n}`.  The expression carries no
`^` and no `$`. -/
abbrev Regexp := List (CharClass × Nat)

/-- One item `[class]{n}` at the start of `s`: the rest of `s` after `n`
characters of the class, or `none`. -/
def matchRepeat (cls : CharClass) : Nat → List Char → Option (List Char)
  | 0, s => some s
  | _ + 1, [] => none
  | n + 1, c :: s => if cls.mem c then matchRepeat cls n s else none

/-- The whole expression matched at the start of `s`. -/
def matchHere : Regexp → List Char → Bool
  | [], _ => true
  | (cls, n) :: re, s =>
    match matchRepeat cls n s with
    | some rest => matchHere re rest
    | none => false

/-- The method `(*Regexp).MatchString`: whether the expression matches
somewhere in `s`, that is at some start offset from `0` to `len(s)`. -/
def Regexp.MatchString (re : Regexp) : List Char → Bool
  | [] => matchHere re []
  | c :: s => matchHere re (c :: s) || Regexp.MatchString re s

/-- The struct `countrySettings`; `re` is `none` for Go `nil`. -/
structure countrySettings where
  Length : Nat
  Format : List Char
  re : Option Regexp
  deriving DecidableEq, Repr

/-- The call `formatParts.FindAllString(format, -1)` with `formatParts` the
expression `[ABCFLUW]\d{2}`: the successive leftmost non-overlapping matches.
Every match has exactly three characters and is kept as the triple of them, so
that `ps[:1]` is its first component and `ps[1:]` its last two. -/
def formatParts.FindAllString : List Char → List (Char × Char × Char)
  | a :: b :: c :: rest =>
    if (classOfLetter a).isSome && isDigit b && isDigit c then
      (a, b, c) :: formatParts.FindAllString rest
    else formatParts.FindAllString (b :: c :: rest)
  | _ => []

/-- The value of a non-empty string of decimal digits, `none` for any other
string.  This is `strconv.Atoi` and the magnitude part of `big.Int.SetString`
in base 10 (neither accepts an empty digit string or a character that is not a
digit). -/
def parseDecimal (s : List Char) : Option Nat :=
  if s ≠ [] ∧ s.all isDigit = true then
    some (s.foldl (fun n c => 10 * n + (c.toNat - 48)) 0)
  else none

/-- Go `strconv.Atoi` on the count field `ps[1:]` of a layout token.  The
field is two characters of `\d`, so the optional sign `Atoi` would accept
cannot occur and is not modelled. -/
def Atoi (s : List Char) : Option Nat := parseDecimal s

/-- Go `strconv.Itoa` on a non-negative number. -/
def Itoa (n : Nat) : List Char := Nat.toDigits 10 n

/-- The parser of Go `regexp.Compile` on the text `compileFormat` assembles,
kept as its list of pieces: a piece `(some cls, n)` is the text `[cls]{n}`, a
piece `(none, n)` is a bare `{n}` (no `case` of the `switch` wrote a class).  A
bare repetition has nothing to repeat (or stacks on the repetition before it)
and a count above 1000 is over the repeat limit of the `regexp` package; both
are parse errors. -/
def regexpParse : List (Option CharClass × Nat) → Except Error Regexp
  | [] => .ok []
  | (some cls, n) :: bbr =>
    if n ≤ 1000 then
      match regexpParse bbr with
      | .ok re => .ok ((cls, n) :: re)
      | .error e => .error e
    else .error .errRegexp
  | (none, _) :: _ => .error .errRegexp

/-- The size limit of package `regexp/syntax` on a parsed expression, in
instructions: `128 << 20 / 40`. -/
def maxSize : Nat := 3355443

/-- The size `regexp/syntax` computes for the concatenation of the pieces: a
piece `[cls]{n}` counts `n` times the size 1 of its class, and every piece
counts at least 1. -/
def regexpSize (bbr : List (Option CharClass × Nat)) : Nat :=
  (bbr.map fun piece => max 1 piece.2).sum

/-- Go `regexp.Compile` on the text `compileFormat` assembles: an expression
whose size is over `maxSize` is rejected as too large, any other goes through
the parser.  Every error of `regexp.Compile` is the one value `errRegexp`. -/
def regexpCompile (bbr : List (Option CharClass × Nat)) : Except Error Regexp :=
  if regexpSize bbr > maxSize then .error .errRegexp else regexpParse bbr

/-- The `for _, ps := range fps` loop of `compileFormat`, with `bbr` the text
assembled so far. -/
def compileFormat.loop :
    List (Char × Char × Char) → List (Option CharClass × Nat) →
      Except Error (List (Option CharClass × Nat))
  | [], bbr => .ok bbr
  | (a, b, c) :: fps, bbr =>
    match Atoi [b, c] with
    | none => .error (.errAtoi [b, c])
    | some n => compileFormat.loop fps (bbr ++ [(classOfLetter a, n)])

/-- The function `compileFormat` of `countries.go`. -/
def compileFormat (format : List Char) : Except Error Regexp :=
  let fps := formatParts.FindAllString format
  match compileFormat.loop fps [] with
  | .error e => .error e
  | .ok bbr => regexpCompile bbr

/-- The method `validateBasicBankAccountNumber` of `countries.go`: the error
it returns (`none` for `nil`) and the receiver after the call, whose `re` is
set when the layout was compiled by this call. -/
def countrySettings.validateBasicBankAccountNumber (cs : countrySettings)
    (bban : List Char) : Option Error × countrySettings :=
  match cs.re with
  | some re =>
    (if !(Regexp.MatchString re bban) then some .errBBANMalformat else none, cs)
  | none =>
    match compileFormat cs.Format with
    | .error e => (some (.errFailedToValidate e), cs)
    | .ok re =>
      (if !(Regexp.MatchString re bban) then some .errBBANMalformat else none,
        { cs with re := some re })

/-- The map `countries`: country code, then the entry it points to. -/
abbrev Registry := List (List Char × countrySettings)

/-- The map read `countries[countryCode]`. -/
def Registry.get (reg : Registry) (countryCode : List Char) : Option countrySettings :=
  match reg with
  | [] => none
  | (k, cs) :: rest => if k = countryCode then some cs else Registry.get rest countryCode

/-- The effect of a write through the pointer `countries[countryCode]`: the
entry of that key is replaced, every other entry is kept. -/
def Registry.set (reg : Registry) (countryCode : List Char) (cs : countrySettings) :
    Registry :=
  match reg with
  | [] => []
  | (k, old) :: rest =>
    if k = countryCode then (k, cs) :: rest else (k, old) :: Registry.set rest countryCode cs

/-- One line of the composite literal of `countries`: the key and the struct
`&countrySettings{Length: length, Format: format}`, whose `re` is `nil`. -/
def entry (code : String) (length : Nat) (format : String) : List Char × countrySettings :=
  (code.toList, { Length := length, Format := format.toList, re := none })

/-- The variable `countries` of `countries.go` as the program starts: no
layout is compiled yet. -/
def countries : Registry :=
  [
    entry "AD" 24 "F04F04A12",
    entry "AE" 23 "F03F16",
    entry "AL" 28 "F08A16",
    entry "AT" 20 "F05F11",
    entry "AZ" 28 "U04A20",
    entry "BA" 20 "F03F03F08F02",
    entry "BE" 16 "F03F07F02",
    entry "BG" 22 "U04F04F02A08",
    entry "BH" 22 "U04A14",
    entry "BR" 29 "F08F05F10U01A01",
    entry "CH" 21 "F05A12",
    entry "CR" 21 "F03F14",
    entry "CY" 28 "F03F05A16",
    entry "CZ" 24 "F04F06F10",
    entry "DE" 22 "F08F10",
    entry "DK" 18 "F04F09F01",
    entry "DO" 28 "U04F20",
    entry "EE" 20 "F02F02F11F01",
    entry "ES" 24 "F04F04F01F01F10",
    entry "FI" 18 "F06F07F01",
    entry "FO" 18 "F04F09F01",
    entry "FR" 27 "F05F05A11F02",
    entry "GB" 22 "U04F06F08",
    entry "GE" 22 "U02F16",
    entry "GI" 23 "U04A15",
    entry "GL" 18 "F04F09F01",
    entry "GR" 27 "F03F04A16",
    entry "GT" 28 "A04A20",
    entry "HR" 21 "F07F10",
    entry "HU" 28 "F03F04F01F15F01",
    entry "IE" 22 "U04F06F08",
    entry "IL" 23 "F03F03F13",
    entry "IS" 26 "F04F02F06F10",
    entry "IT" 27 "U01F05F05A12",
    entry "JO" 30 "U04F04A18",
    entry "KW" 30 "U04A22",
    entry "KZ" 20 "F03A13",
    entry "LB" 28 "F04A20",
    entry "LC" 32 "U04A24",
    entry "LI" 21 "F05A12",
    entry "LT" 20 "F05F11",
    entry "LU" 20 "F03A13",
    entry "LV" 21 "U04A13",
    entry "MC" 27 "F05F05A11F02",
    entry "MD" 24 "A20",
    entry "ME" 22 "F03F13F02",
    entry "MK" 19 "F03A10F02",
    entry "MR" 27 "F05F05F11F02",
    entry "MT" 31 "U04F05A18",
    entry "MU" 30 "U04F02F02F12F03U03",
    entry "NL" 18 "U04F10",
    entry "NO" 15 "F04F06F01",
    entry "PK" 24 "U04A16",
    entry "PL" 28 "F08F16",
    entry "PS" 29 "U04A21",
    entry "PT" 25 "F04F04F11F02",
    entry "QA" 29 "U04A21",
    entry "RO" 24 "U04A16",
    entry "RS" 22 "F03F13F02",
    entry "SA" 24 "F02A18",
    entry "SC" 31 "U04F02F02F16U03",
    entry "SE" 24 "F03F16F01",
    entry "SI" 19 "F05F08F02",
    entry "SK" 24 "F04F06F10",
    entry "SM" 27 "U01F05F05A12",
    entry "ST" 25 "F08F11F02",
    entry "TL" 23 "F03F14F02",
    entry "TN" 24 "F02F03F13F02",
    entry "TR" 26 "F05A01A16",
    entry "UA" 29 "F06A19",
    entry "VG" 24 "U04F16",
    entry "XK" 20 "F04F10F02"
  ]

/-! ## `check.go`: the mod-97 check -/

/-- Go `new(big.Int).SetString(mods, 10)`: an optional sign followed by a
non-empty string of decimal digits; `none` when it reports failure. -/
def SetString (mods : List Char) : Option Int :=
  match mods with
  | [] => none
  | c :: rest =>
    if c = '-' then (parseDecimal rest).map (fun n => -(n : Int))
    else if c = '+' then (parseDecimal rest).map (fun n => (n : Int))
    else (parseDecimal (c :: rest)).map (fun n => (n : Int))

/-- The body of the `for _, c := range iban` loop of `validateCheckDigits`:
what one character appends to `mods`. -/
def expandRune (c : Char) : List Char :=
  let i := c.toNat
  if i > 64 ∧ i < 91 then Itoa (i - 55) else [c]

/-- The function `validateCheckDigits` of `check.go`; the inner `Option` is the
returned error (`none` for `nil`). -/
def validateCheckDigits (iban : List Char) : Option (Option Error) :=
  (sliceFrom iban 4).bind fun tail =>
  (sliceTo iban 4).bind fun head =>
  let iban := tail ++ head
  let mods := iban.foldl (fun mods c => mods ++ expandRune c) []
  match SetString mods with
  | none => some (some .errFailed)
  | some bigVal =>
    let resVal := bigVal % 97
    if resVal ≠ 1 then some (some .errCheckDigits) else some none

/-! ## `iban.go`: `ParseIBAN` -/

/-- The loop `for len(s) > 4 { prc += s[:4] + " "; s = s[4:] }` of
`ParseIBAN`, returning the final `prc` and `s`.  The recursion is on a fuel
argument; `ParseIBAN` supplies `len(s)`, which is enough because every
iteration shortens `s` by four. -/
def printLoop : Nat → List Char → List Char → Option (List Char × List Char)
  | 0, prc, s => if s.length > 4 then none else some (prc, s)
  | fuel + 1, prc, s =>
    if s.length > 4 then
      (sliceTo s 4).bind fun head =>
      (sliceFrom s 4).bind fun tail =>
      printLoop fuel (prc ++ (head ++ [' '])) tail
    else some (prc, s)

/-- The function `ParseIBAN` of `iban.go`, run in the registry state `reg`:
the returned pair `(*IBAN, error)` as an `Except`, and the registry state after
the call.  `none` is a run-time panic. -/
def ParseIBAN (up : Char → Char) (reg : Registry) (s : List Char) :
    Option (Except Error IBAN × Registry) :=
  let s := allWhiteSpaces.ReplaceAllString s
  let s := ToUpper up s
  let code := s
  if !(numUpperOnly.MatchString s) then some (.error .errAlphaNumOnly, reg) else
  let hs := twoUpperTwoDigits.FindString s
  if hs = [] then some (.error .errCountryCodeOrCheckDigits, reg) else
  (slice hs 0 2).bind fun countryCode =>
  (slice hs 2 4).bind fun checkDigits =>
  match reg.get countryCode with
  | none => some (.error .ErrUnsupportedCountryCode, reg)
  | some cs =>
    if s.length ≠ cs.Length then
      some (.error (.errLength s.length cs.Length countryCode), reg)
    else
    (sliceFrom s 4).bind fun bban =>
    match cs.validateBasicBankAccountNumber bban with
    | (some err, cs1) => some (.error err, reg.set countryCode cs1)
    | (none, cs1) =>
      let reg1 := reg.set countryCode cs1
      (validateCheckDigits code).bind fun res =>
      match res with
      | some err => some (.error err, reg1)
      | none =>
        (printLoop s.length [] s).bind fun (prc, rest) =>
        let prc := prc ++ rest
        some (.ok
          { Code := code, PrintCode := prc, CountryCode := countryCode,
            CheckDigits := checkDigits, BBAN := bban }, reg1)

/-- The registry states the program can be in: the initial one, and the state
after any call of `ParseIBAN` made in such a state. -/
inductive Reachable (up : Char → Char) : Registry → Prop where
  | init : Reachable up countries
  | step {reg reg1 : Registry} {s : List Char} {out : Except Error IBAN} :
      Reachable up reg → ParseIBAN up reg s = some (out, reg1) → Reachable up reg1

/-! ## The gates of `ParseIBAN` in the words of the specification

These definitions are not translations of source code: they restate the
conditions the specification names, so that the theorems below can compare the
code with them. -/

/-- Specification side: the string starts with two upper-case letters followed
by two digits. -/
def hasHeader (s : List Char) : Bool :=
  match s with
  | a :: b :: c :: d :: _ => isUpper a && isUpper b && isDigit c && isDigit d
  | _ => false

/-- Specification side: the tokens of a layout descriptor, each a class letter
with the count its two decimal digits denote. -/
def layoutTokens (format : List Char) : List (CharClass × Nat) :=
  (formatParts.FindAllString format).filterMap fun (a, b, c) =>
    (classOfLetter a).map fun cls => (cls, 10 * (b.toNat - 48) + (c.toNat - 48))

/-- Specification side: for each position of a BBAN, the class of the layout
token that covers it. -/
def layoutPositions (format : List Char) : List CharClass :=
  (layoutTokens format).flatMap fun (cls, n) => List.replicate n cls

/-- Specification side: the string has exactly one character per class of the
list and every character is in the class at its position. -/
def matchesClasses : List CharClass → List Char → Bool
  | [], [] => true
  | cls :: classes, c :: s => cls.mem c && matchesClasses classes s
  | _, _ => false

/-- Specification side: the BBAN matches the layout as a whole, position by
position. -/
def matchesLayout (format : List Char) (bban : List Char) : Bool :=
  matchesClasses (layoutPositions format) bban

/-- Specification side: the decimal digits one character of the rearranged
IBAN stands for: a letter `A`..`Z` gives the two digits of its value
`10`..`35`, a digit gives itself. -/
def letterDigits (c : Char) : List Nat :=
  if isUpper c then [(c.toNat - 55) / 10, (c.toNat - 55) % 10] else [c.toNat - 48]

/-- Specification side: the unbounded integer `N` whose decimal representation
is the letter-expanded rearrangement `s[4:] ++ s[0:4]`. -/
def mod97Number (s : List Char) : Nat :=
  Nat.ofDigits 10 (((s.drop 4 ++ s.take 4).flatMap letterDigits).reverse)

/-- Specification side: the six conditions under which an IBAN is accepted,
on a normalized string `s`. -/
def Accepted (s : List Char) : Prop :=
  s.all isNumUpper = true ∧ hasHeader s = true ∧
    ∃ cs, countries.get (s.take 2) = some cs ∧ s.length = cs.Length ∧
      matchesLayout cs.Format (s.drop 4) = true ∧ mod97Number s % 97 = 1

/-- Specification side: the printable form of a code, its groups of four
characters (the last one holding the remainder) joined by single spaces. -/
def codeGroups (code : List Char) : List (List Char) :=
  (List.range ((code.length + 3) / 4)).map fun i => (code.drop (4 * i)).take 4

/-- Specification side: the validation pipeline of the specification on a
normalized string `s`: the six gates in their order, each with its error kind,
then the result value. -/
def specParse (s : List Char) : Except Error IBAN :=
  if s.all isNumUpper = false then .error .errAlphaNumOnly
  else if hasHeader s = false then .error .errCountryCodeOrCheckDigits
  else
    match countries.get (s.take 2) with
    | none => .error .ErrUnsupportedCountryCode
    | some cs =>
      if s.length ≠ cs.Length then .error (.errLength s.length cs.Length (s.take 2))
      else if matchesLayout cs.Format (s.drop 4) = false then .error .errBBANMalformat
      else if mod97Number s % 97 ≠ 1 then .error .errCheckDigits
      else
        .ok
          { Code := s, PrintCode := List.intercalate [' '] (codeGroups s),
            CountryCode := s.take 2, CheckDigits := (s.drop 2).take 2, BBAN := s.drop 4 }

/-! ## Auxiliary notions for the proofs -/

/-- The classes a compiled expression asks for, position by position. -/
def rePositions (re : Regexp) : List CharClass :=
  re.flatMap fun (cls, n) => List.replicate n cls

/-- A check on one entry of the initial `countries`: the layout compiles, the
compiled expression asks for the classes of the layout tokens, `Length` is four
more than the number of positions, and nothing is cached yet. -/
def entryOK (e : List Char × countrySettings) : Bool :=
  match compileFormat e.2.Format with
  | .ok re =>
    decide (rePositions re = layoutPositions e.2.Format) &&
      decide ((layoutPositions e.2.Format).length + 4 = e.2.Length) && e.2.re.isNone
  | .error _ => false

/-- An entry `cs` of a later registry state against the entry `cs0` it started
as: `Length` and `Format` are unchanged and `re` is `nil` or the compiled
`Format`. -/
def cacheState (cs0 cs : countrySettings) : Prop :=
  cs.Length = cs0.Length ∧ cs.Format = cs0.Format ∧
    ∀ re, cs.re = some re → compileFormat cs0.Format = .ok re

/-- The cache invariant of a registry state: it has the keys of the initial
`countries` in the same order, and every entry is in a `cacheState` of its
initial entry. -/
def CacheOK (reg : Registry) : Prop :=
  List.Forall₂ (fun e0 e => e.1 = e0.1 ∧ cacheState e0.2 e.2) countries reg

/-- The two facts about the non-ASCII part of Go's Unicode upper-case table
that idempotence of normalization rests on: the upper-case of a code point
from 128 on is not white space, and it is its own upper-case. -/
def UpperTable (up : Char → Char) : Prop :=
  ∀ c : Char, 128 ≤ c.toNat → isSpace (up c) = false ∧ toUpperRune up (up c) = up c

/-- A table for concrete evaluations: the two code points from 128 on whose
upper-case is an ASCII letter (`U+0131` gives `I` and `U+017F` gives `S`) are
mapped as Go maps them, every other code point is kept. -/
def asciiImages (c : Char) : Char :=
  if c.toNat = 305 then 'I' else if c.toNat = 383 then 'S' else c

/-- The character of a decimal digit. -/
def digitChar (d : Nat) : Char := Char.ofNat (48 + d)

/-- The text one match of `formatParts` contributes to the expression: the
class its letter selects in the `switch` and the count its two digits denote. -/
def pieceOf (t : Char × Char × Char) : Option CharClass × Nat :=
  (classOfLetter t.1, 10 * (t.2.1.toNat - 48) + (t.2.2.toNat - 48))

/-- Specification side: a descriptor read as a concatenation of tokens and
nothing else, each token one class letter of `ABCFLUW` followed by a two-digit
count; `none` when the string is not entirely such a concatenation. -/
def parseLayout : List Char → Option (List (CharClass × Nat))
  | [] => some []
  | a :: b :: c :: rest =>
    match classOfLetter a with
    | some cls =>
      if isDigit b && isDigit c then
        (parseLayout rest).map fun toks =>
          (cls, 10 * (b.toNat - 48) + (c.toNat - 48)) :: toks
      else none
    | none => none
  | _ => none

/-- Specification side: the class required at each position by a list of
tokens: each token's class repeated `count` times, in the order of the
tokens. -/
def tokenClasses (toks : List (CharClass × Nat)) : List CharClass :=
  toks.flatMap fun (cls, n) => List.replicate n cls

/-- Specification side: the size of the expression of a list of tokens against
the limit of `regexp.Compile`: the sum of the counts, a count of zero taken as
one. -/
def exprSize (toks : List (CharClass × Nat)) : Nat :=
  (toks.map fun tok => max 1 tok.2).sum

/-- Specification side: streaming modular reduction over a list of decimal
digits, `acc := (acc * 10 + digit) mod 97` from `acc = 0`. -/
def streamMod97 (digits : List Nat) : Nat :=
  digits.foldl (fun acc d => (acc * 10 + d) % 97) 0

/-- Specification side: the two-digit decimal form of a number below 100. -/
def twoDigits (v : Nat) : List Char := [digitChar (v / 10), digitChar (v % 10)]

/-- Specification side: the check digits generated for a country code and a
BBAN: the two-digit form of `98 - r`, with `r` the mod-97 remainder of the
number read from `bban ++ countryCode ++ "00"`. -/
def generateCheckDigits (countryCode bban : List Char) : List Char :=
  twoDigits (98 - mod97Number (countryCode ++ ['0', '0'] ++ bban) % 97)

/-! ## Lemmas: compiled layouts -/

theorem matchRepeat_eq_some {cls : CharClass} {n : Nat} {s rest : List Char} :
    matchRepeat cls n s = some rest ↔
      ∃ pre, s = pre ++ rest ∧ pre.length = n ∧ ∀ c ∈ pre, cls.mem c = true := by
  induction n generalizing s with
  | zero =>
    simp only [matchRepeat, Option.some.injEq]
    constructor
    · rintro rfl; exact ⟨[], rfl, rfl, by simp⟩
    · rintro ⟨pre, h1, h2, -⟩
      rw [List.length_eq_zero] at h2; subst h2; simpa using h1
  | succ n ih =>
    cases s with
    | nil =>
      simp only [matchRepeat]
      refine ⟨nofun, ?_⟩
      rintro ⟨pre, h1, h2, -⟩
      have : pre = [] := by
        have := congrArg List.length h1; simp at this; omega
      subst this; simp at h2
    | cons c s =>
      simp only [matchRepeat]
      by_cases hc : cls.mem c = true
      · rw [if_pos hc, ih]
        constructor
        · rintro ⟨pre, rfl, h2, h3⟩
          exact ⟨c :: pre, rfl, by simp [h2], by simpa [hc] using h3⟩
        · rintro ⟨pre, h1, h2, h3⟩
          cases pre with
          | nil => simp at h2
          | cons d pre =>
            simp only [List.cons_append, List.cons.injEq] at h1
            obtain ⟨rfl, rfl⟩ := h1
            exact ⟨pre, rfl, by simpa using h2, fun x hx => h3 x (List.mem_cons_of_mem _ hx)⟩
      · rw [if_neg hc]
        refine ⟨nofun, ?_⟩
        rintro ⟨pre, h1, h2, h3⟩
        cases pre with
        | nil => simp at h2
        | cons d pre =>
          simp only [List.cons_append, List.cons.injEq] at h1
          obtain ⟨rfl, rfl⟩ := h1
          exact absurd (h3 c (List.mem_cons_self _ _)) hc

theorem matchesClasses_replicate_append (cls : CharClass) (n : Nat) (pre : List Char)
    (classes : List CharClass) (rest : List Char) (hlen : pre.length = n) :
    matchesClasses (List.replicate n cls ++ classes) (pre ++ rest) =
      (pre.all cls.mem && matchesClasses classes rest) := by
  induction n generalizing pre with
  | zero =>
    rw [List.length_eq_zero] at hlen; subst hlen; simp
  | succ n ih =>
    cases pre with
    | nil => simp at hlen
    | cons c pre =>
      simp only [List.replicate_succ, List.cons_append, matchesClasses, List.all_cons, List.append_eq]
      rw [ih pre (by simpa using hlen), Bool.and_assoc]

theorem matchesClasses_length {classes : List CharClass} {s : List Char}
    (h : matchesClasses classes s = true) : classes.length = s.length := by
  induction classes generalizing s with
  | nil => cases s with
    | nil => rfl
    | cons c s => simp [matchesClasses] at h
  | cons cls classes ih => cases s with
    | nil => simp [matchesClasses] at h
    | cons c s =>
      simp only [matchesClasses, Bool.and_eq_true] at h
      simp [ih h.2]

theorem matchHere_iff {re : Regexp} {s : List Char} :
    matchHere re s = true ↔
      ∃ pre rest, s = pre ++ rest ∧ matchesClasses (rePositions re) pre = true := by
  induction re generalizing s with
  | nil =>
    simp only [matchHere, rePositions, List.flatMap_nil, true_iff]
    exact ⟨[], s, rfl, rfl⟩
  | cons item re ih =>
    obtain ⟨cls, n⟩ := item
    simp only [matchHere]
    constructor
    · intro h
      cases hm : matchRepeat cls n s with
      | none => rw [hm] at h; cases h
      | some mid =>
        rw [hm] at h
        obtain ⟨pre, rfl, hlen, hall⟩ := matchRepeat_eq_some.mp hm
        obtain ⟨pre2, rest, rfl, h2⟩ := ih.mp h
        refine ⟨pre ++ pre2, rest, by simp, ?_⟩
        have := matchesClasses_replicate_append cls n pre (rePositions re) pre2 hlen
        simp only [rePositions, List.flatMap_cons] at this ⊢
        rw [this, Bool.and_eq_true]
        exact ⟨List.all_eq_true.mpr hall, h2⟩
    · rintro ⟨pre, rest, rfl, h⟩
      simp only [rePositions, List.flatMap_cons] at h
      have hle : n ≤ pre.length := by
        have := matchesClasses_length h
        simp at this; omega
      have hsplit : pre = pre.take n ++ pre.drop n := (List.take_append_drop n pre).symm
      have hlen : (pre.take n).length = n := by simp [hle]
      rw [hsplit, matchesClasses_replicate_append cls n _ _ _ hlen, Bool.and_eq_true] at h
      have hm : matchRepeat cls n (pre ++ rest) = some (pre.drop n ++ rest) :=
        matchRepeat_eq_some.mpr ⟨pre.take n, by rw [← List.append_assoc, ← hsplit], hlen,
          List.all_eq_true.mp h.1⟩
      rw [hm]
      exact ih.mpr ⟨pre.drop n, rest, rfl, h.2⟩

theorem MatchString_iff {re : Regexp} {s : List Char} :
    Regexp.MatchString re s = true ↔
      ∃ l pre r, s = l ++ (pre ++ r) ∧ matchesClasses (rePositions re) pre = true := by
  induction s with
  | nil =>
    simp only [Regexp.MatchString, matchHere_iff]
    constructor
    · rintro ⟨pre, rest, h1, h2⟩; exact ⟨[], pre, rest, h1, h2⟩
    · rintro ⟨l, pre, r, h1, h2⟩
      have hl : l = [] := by
        have := congrArg List.length h1; simp at this; exact List.length_eq_zero.mp (by omega)
      subst hl
      exact ⟨pre, r, h1, h2⟩
  | cons c s ih =>
    simp only [Regexp.MatchString, Bool.or_eq_true, matchHere_iff, ih]
    constructor
    · rintro (⟨pre, rest, h1, h2⟩ | ⟨l, pre, r, h1, h2⟩)
      · exact ⟨[], pre, rest, h1, h2⟩
      · exact ⟨c :: l, pre, r, by rw [h1]; rfl, h2⟩
    · rintro ⟨l, pre, r, h1, h2⟩
      cases l with
      | nil => exact Or.inl ⟨pre, r, h1, h2⟩
      | cons d l =>
        simp only [List.cons_append, List.cons.injEq] at h1
        exact Or.inr ⟨l, pre, r, h1.2, h2⟩

/-- An expression whose positions are as many as the string has characters
matches somewhere in the string exactly when it matches the whole string. -/
theorem MatchString_of_length {re : Regexp} {s : List Char}
    (hlen : s.length = (rePositions re).length) :
    Regexp.MatchString re s = matchesClasses (rePositions re) s := by
  rw [Bool.eq_iff_iff, MatchString_iff]
  constructor
  · rintro ⟨l, pre, r, rfl, h⟩
    have := matchesClasses_length h
    simp only [List.length_append] at hlen
    have hl : l = [] := List.length_eq_zero.mp (by omega)
    have hr : r = [] := List.length_eq_zero.mp (by omega)
    subst hl hr
    simpa using h
  · intro h
    exact ⟨[], s, [], by simp, h⟩

/-! ## Lemmas: the registry and its cache -/

theorem countries_entryOK : countries.all entryOK = true := by decide

theorem get_mem {reg : Registry} {k : List Char} {cs : countrySettings}
    (h : reg.get k = some cs) : (k, cs) ∈ reg := by
  induction reg with
  | nil => simp [Registry.get] at h
  | cons e reg ih =>
    obtain ⟨k0, c0⟩ := e
    simp only [Registry.get] at h
    by_cases hk : k0 = k
    · rw [if_pos hk] at h
      cases h; subst hk
      exact List.mem_cons_self _ _
    · rw [if_neg hk] at h
      exact List.mem_cons_of_mem _ (ih h)

/-- What the check `entryOK` gives for an entry found in the initial map. -/
theorem countries_get_ok {k : List Char} {cs0 : countrySettings}
    (h : countries.get k = some cs0) :
    ∃ re, compileFormat cs0.Format = .ok re ∧
      rePositions re = layoutPositions cs0.Format ∧
      (layoutPositions cs0.Format).length + 4 = cs0.Length := by
  have hall := List.all_eq_true.mp countries_entryOK _ (get_mem h)
  simp only [entryOK] at hall
  cases hc : compileFormat cs0.Format with
  | error e => rw [hc] at hall; cases hall
  | ok re =>
    rw [hc] at hall
    simp only [Bool.and_eq_true, decide_eq_true_eq] at hall
    exact ⟨re, rfl, hall.1.1, hall.1.2⟩

theorem cacheState_refl_of_none {cs0 : countrySettings} (h : cs0.re = none) :
    cacheState cs0 cs0 :=
  ⟨rfl, rfl, fun re hre => by rw [h] at hre; cases hre⟩

theorem cacheOK_countries : CacheOK countries := by
  have key : ∀ l : Registry, l.all entryOK = true →
      List.Forall₂ (fun e0 e => e.1 = e0.1 ∧ cacheState e0.2 e.2) l l := by
    intro l
    induction l with
    | nil => intro _; exact List.Forall₂.nil
    | cons e l ih =>
      intro h
      simp only [List.all_cons, Bool.and_eq_true] at h
      refine List.Forall₂.cons ⟨rfl, cacheState_refl_of_none ?_⟩ (ih h.2)
      have h1 := h.1
      simp only [entryOK] at h1
      cases hc : compileFormat e.2.Format with
      | error err => rw [hc] at h1; cases h1
      | ok re =>
        rw [hc] at h1
        simp only [Bool.and_eq_true, decide_eq_true_eq] at h1
        exact Option.isNone_iff_eq_none.mp h1.2
  exact key countries countries_entryOK

/-- A map read in a state under the cache invariant against the same read in
the initial state. -/
theorem get_of_forall2 {reg0 reg : Registry} (k : List Char)
    (h : List.Forall₂ (fun e0 e => e.1 = e0.1 ∧ cacheState e0.2 e.2) reg0 reg) :
    (reg0.get k = none ∧ reg.get k = none) ∨
      ∃ cs0 cs, reg0.get k = some cs0 ∧ reg.get k = some cs ∧ cacheState cs0 cs := by
  induction h with
  | nil => exact Or.inl ⟨rfl, rfl⟩
  | @cons e0 e l0 l he _ ih =>
    obtain ⟨k0, c0⟩ := e0
    obtain ⟨k1, c1⟩ := e
    obtain ⟨hk, hc⟩ := he
    simp only at hk hc
    subst hk
    simp only [Registry.get]
    by_cases hkk : k1 = k
    · simp only [if_pos hkk]
      exact Or.inr ⟨c0, c1, rfl, rfl, hc⟩
    · simp only [if_neg hkk]
      exact ih

theorem set_of_forall2 {reg0 reg : Registry} (k : List Char) {cs0 cs1 : countrySettings}
    (h : List.Forall₂ (fun e0 e => e.1 = e0.1 ∧ cacheState e0.2 e.2) reg0 reg)
    (h0 : reg0.get k = some cs0) (h1 : cacheState cs0 cs1) :
    List.Forall₂ (fun e0 e => e.1 = e0.1 ∧ cacheState e0.2 e.2) reg0 (reg.set k cs1) := by
  induction h with
  | nil => exact List.Forall₂.nil
  | @cons e0 e l0 l he hl ih =>
    obtain ⟨k0, c0⟩ := e0
    obtain ⟨k1, c1⟩ := e
    obtain ⟨hk, hc⟩ := he
    simp only at hk hc
    subst hk
    simp only [Registry.get] at h0
    simp only [Registry.set]
    by_cases hkk : k1 = k
    · rw [if_pos hkk] at h0
      cases h0
      rw [if_pos hkk]
      exact List.Forall₂.cons ⟨rfl, h1⟩ hl
    · rw [if_neg hkk] at h0
      rw [if_neg hkk]
      exact List.Forall₂.cons ⟨rfl, hc⟩ (ih h0)

/-- The BBAN check on a cached or uncached entry: the error is decided by the
compiled layout alone, and the entry stays in a cache state. -/
theorem validate_of_cacheState {cs0 cs : countrySettings} {re : Regexp} (bban : List Char)
    (hc : cacheState cs0 cs) (hre : compileFormat cs0.Format = .ok re) :
    ∃ cs1, cs.validateBasicBankAccountNumber bban =
        (if Regexp.MatchString re bban = true then none else some .errBBANMalformat, cs1) ∧
      cacheState cs0 cs1 := by
  obtain ⟨hL, hF, hR⟩ := hc
  cases hcr : cs.re with
  | none =>
    refine ⟨{ cs with re := some re }, ?_, ⟨hL, hF, ?_⟩⟩
    · simp only [countrySettings.validateBasicBankAccountNumber, hcr, hF, hre]
      cases Regexp.MatchString re bban <;> simp
    · intro r hr
      simp only [Option.some.injEq] at hr
      rw [← hr]; exact hre
  | some r =>
    have := hR r hcr
    rw [hre] at this
    cases this
    refine ⟨cs, ?_, ⟨hL, hF, hR⟩⟩
    simp only [countrySettings.validateBasicBankAccountNumber, hcr]
    cases Regexp.MatchString re bban <;> simp

/-! ## Lemmas: the mod-97 check -/

theorem digitChar_toNat {d : Nat} (h : d < 10) : (digitChar d).toNat = 48 + d := by
  interval_cases d <;> rfl

theorem isDigit_digitChar {d : Nat} (h : d < 10) : isDigit (digitChar d) = true := by
  interval_cases d <;> rfl

theorem Itoa_two_digits {v : Nat} (h1 : 10 ≤ v) (h2 : v ≤ 35) :
    Itoa v = [digitChar (v / 10), digitChar (v % 10)] := by
  interval_cases v <;> rfl

theorem expandRune_eq {c : Char} (h : isNumUpper c = true) :
    expandRune c = (letterDigits c).map digitChar := by
  simp only [isNumUpper, Bool.or_eq_true] at h
  by_cases hu : isUpper c = true
  · have hu2 := hu
    simp only [isUpper, Bool.and_eq_true, decide_eq_true_eq] at hu2
    have h1 : c.toNat > 64 ∧ c.toNat < 91 := by omega
    simp only [expandRune, letterDigits, if_pos h1, if_pos hu, List.map]
    exact Itoa_two_digits (by omega) (by omega)
  · have hd : isDigit c = true := by
      rcases h with h | h
      · exact h
      · exact absurd h hu
    have hu2 := hu
    simp only [isUpper, Bool.and_eq_true, decide_eq_true_eq] at hu2
    simp only [isDigit, Bool.and_eq_true, decide_eq_true_eq] at hd
    have h1 : ¬ (c.toNat > 64 ∧ c.toNat < 91) := by omega
    simp only [expandRune, letterDigits, if_neg h1, if_neg hu, List.map, digitChar]
    have : 48 + (c.toNat - 48) = c.toNat := by omega
    rw [this, Char.ofNat_toNat]

theorem letterDigits_lt {c : Char} (h : isNumUpper c = true) : ∀ d ∈ letterDigits c, d < 10 := by
  simp only [isNumUpper, Bool.or_eq_true] at h
  by_cases hu : isUpper c = true
  · have hu2 := hu
    simp only [isUpper, Bool.and_eq_true, decide_eq_true_eq] at hu2
    simp only [letterDigits, if_pos hu, List.mem_cons, List.mem_singleton, List.not_mem_nil,
      or_false]
    rintro d (rfl | rfl) <;> omega
  · have hd : isDigit c = true := by
      rcases h with h | h
      · exact h
      · exact absurd h hu
    simp only [isDigit, Bool.and_eq_true, decide_eq_true_eq] at hd
    simp only [letterDigits, if_neg hu, List.mem_singleton]
    rintro d rfl; omega

theorem letterDigits_ne_nil (c : Char) : letterDigits c ≠ [] := by
  unfold letterDigits; split <;> simp

theorem foldl_expand (t : List Char) (acc : List Char) :
    t.foldl (fun mods c => mods ++ expandRune c) acc = acc ++ t.flatMap expandRune := by
  induction t generalizing acc with
  | nil => simp
  | cons c t ih => simp [List.foldl_cons, ih, List.flatMap_cons, List.append_assoc]

theorem flatMap_expand {t : List Char} (h : t.all isNumUpper = true) :
    t.flatMap expandRune = (t.flatMap letterDigits).map digitChar := by
  induction t with
  | nil => rfl
  | cons c t ih =>
    simp only [List.all_cons, Bool.and_eq_true] at h
    simp only [List.flatMap_cons, List.map_append, expandRune_eq h.1, ih h.2]

theorem flatMap_letterDigits_lt {t : List Char} (h : t.all isNumUpper = true) :
    ∀ d ∈ t.flatMap letterDigits, d < 10 := by
  intro d hd
  rw [List.mem_flatMap] at hd
  obtain ⟨c, hc, hdc⟩ := hd
  exact letterDigits_lt (List.all_eq_true.mp h c hc) d hdc

theorem foldl_digitChar (ds : List Nat) (h : ∀ d ∈ ds, d < 10) (a : Nat) :
    (ds.map digitChar).foldl (fun n c => 10 * n + (c.toNat - 48)) a =
      ds.foldl (fun n d => d + 10 * n) a := by
  induction ds generalizing a with
  | nil => rfl
  | cons d ds ih =>
    simp only [List.map_cons, List.foldl_cons]
    rw [digitChar_toNat (h d (List.mem_cons_self _ _))]
    rw [ih (fun x hx => h x (List.mem_cons_of_mem _ hx))]
    congr 1; omega

theorem parseDecimal_digitChar {ds : List Nat} (hne : ds ≠ []) (h : ∀ d ∈ ds, d < 10) :
    parseDecimal (ds.map digitChar) = some (Nat.ofDigits 10 ds.reverse) := by
  have h1 : ds.map digitChar ≠ [] := by simpa using hne
  have h2 : (ds.map digitChar).all isDigit = true := by
    rw [List.all_eq_true]
    intro c hc
    rw [List.mem_map] at hc
    obtain ⟨d, hd, rfl⟩ := hc
    exact isDigit_digitChar (h d hd)
  simp only [parseDecimal, if_pos (And.intro h1 h2), Option.some.injEq]
  rw [foldl_digitChar ds h, Nat.ofDigits_eq_foldr, List.foldr_reverse]
  simp

theorem SetString_digitChar {ds : List Nat} (hne : ds ≠ []) (h : ∀ d ∈ ds, d < 10) :
    SetString (ds.map digitChar) = some ((Nat.ofDigits 10 ds.reverse : Nat) : Int) := by
  cases ds with
  | nil => exact absurd rfl hne
  | cons d ds =>
    have hd : d < 10 := h d (List.mem_cons_self _ _)
    have hm : digitChar d ≠ '-' := by interval_cases d <;> decide
    have hp : digitChar d ≠ '+' := by interval_cases d <;> decide
    have := parseDecimal_digitChar hne h
    simp only [List.map_cons] at this
    simp only [List.map_cons, SetString, if_neg hm, if_neg hp]
    rw [this]
    rfl

theorem verdict_eq (N : Nat) :
    (if (N : Int) % 97 ≠ 1 then some (some Error.errCheckDigits) else some none) =
      some (if N % 97 = 1 then none else some Error.errCheckDigits) := by
  by_cases hm : N % 97 = 1
  · have : (N : Int) % 97 = 1 := by exact_mod_cast hm
    simp [hm, this]
  · have : ¬ (N : Int) % 97 = 1 := by
      intro h; apply hm; exact_mod_cast h
    simp [hm, this]

/-- The mod-97 check on a string of at least four characters of `[0-9A-Z]`:
no panic, no parse failure, and the verdict is that of the number `N`. -/
theorem validateCheckDigits_eq {s : List Char} (hlen : 4 ≤ s.length)
    (hs : s.all isNumUpper = true) :
    validateCheckDigits s =
      some (if mod97Number s % 97 = 1 then none else some .errCheckDigits) := by
  have hall : (s.drop 4 ++ s.take 4).all isNumUpper = true := by
    rw [List.all_eq_true] at hs ⊢
    intro c hc
    rw [List.mem_append] at hc
    rcases hc with hc | hc
    · exact hs c (List.mem_of_mem_drop hc)
    · exact hs c (List.mem_of_mem_take hc)
  have hne : (s.drop 4 ++ s.take 4).flatMap letterDigits ≠ [] := by
    cases s with
    | nil => simp at hlen
    | cons c s =>
      intro h
      have h3 : (((c :: s).drop 4 ++ (c :: s).take 4).flatMap letterDigits).length = 0 := by
        rw [h]; rfl
      have h4 := letterDigits_ne_nil c
      simp [List.flatMap_append, List.take, List.flatMap_cons] at h3
      exact h4 h3.2.1
  simp only [validateCheckDigits, sliceFrom, sliceTo, if_pos hlen, Option.bind, foldl_expand,
    List.nil_append, flatMap_expand hall,
    SetString_digitChar hne (flatMap_letterDigits_lt hall), mod97Number]
  exact verdict_eq _

/-! ## Lemmas: the printable form -/

theorem codeGroups_short {s : List Char} (h1 : s ≠ []) (h2 : s.length ≤ 4) :
    codeGroups s = [s] := by
  have hpos : 0 < s.length := List.length_pos.mpr h1
  have : (s.length + 3) / 4 = 1 := by omega
  have hr : List.range 1 = [0] := rfl
  simp only [codeGroups, this, hr, List.map_cons, List.map_nil, Nat.mul_zero,
    List.drop_zero]
  rw [List.take_of_length_le h2]

theorem codeGroups_long {s : List Char} (h : 4 < s.length) :
    codeGroups s = s.take 4 :: codeGroups (s.drop 4) := by
  have h1 : (s.length + 3) / 4 = ((s.drop 4).length + 3) / 4 + 1 := by
    simp only [List.length_drop]; omega
  simp only [codeGroups]
  rw [h1, List.range_succ_eq_map, List.map_cons, List.map_map]
  simp only [Nat.mul_zero, List.drop_zero, List.cons.injEq, true_and]
  apply List.map_congr_left
  intro i _
  simp only [Function.comp, List.drop_drop]
  congr 2
  omega

theorem codeGroups_length (s : List Char) : (codeGroups s).length = (s.length + 3) / 4 := by
  simp [codeGroups]

theorem intercalate_cons_cons {α : Type} (sep x y : List α) (l : List (List α)) :
    List.intercalate sep (x :: y :: l) = x ++ (sep ++ List.intercalate sep (y :: l)) := by
  simp [List.intercalate, List.intersperse]

theorem intercalate_codeGroups_short {s : List Char} (h : s.length ≤ 4) :
    List.intercalate [' '] (codeGroups s) = s := by
  by_cases h1 : s = []
  · subst h1; rfl
  · rw [codeGroups_short h1 h]; simp [List.intercalate, List.intersperse]

theorem intercalate_codeGroups_long {s : List Char} (h : 4 < s.length) :
    List.intercalate [' '] (codeGroups s) =
      s.take 4 ++ ([' '] ++ List.intercalate [' '] (codeGroups (s.drop 4))) := by
  rw [codeGroups_long h]
  have hne : codeGroups (s.drop 4) ≠ [] := by
    intro h0
    have := codeGroups_length (s.drop 4)
    rw [h0] at this
    simp only [List.length_nil, List.length_drop] at this
    omega
  obtain ⟨y, l, hyl⟩ := List.exists_cons_of_ne_nil hne
  rw [hyl, intercalate_cons_cons]

/-- The print loop with enough fuel ends, and what `ParseIBAN` assembles from
its result is the code in groups of four joined by single spaces. -/
theorem printLoop_eq (fuel : Nat) (prc s : List Char) (h : s.length ≤ fuel) :
    ∃ p r, printLoop fuel prc s = some (p, r) ∧
      p ++ r = prc ++ List.intercalate [' '] (codeGroups s) := by
  induction fuel generalizing prc s with
  | zero =>
    have hs : s = [] := List.length_eq_zero.mp (by omega)
    subst hs
    exact ⟨prc, [], rfl, rfl⟩
  | succ fuel ih =>
    by_cases hl : s.length > 4
    · have h4 : 4 ≤ s.length := by omega
      obtain ⟨p, r, h1, h2⟩ := ih (prc ++ (s.take 4 ++ [' '])) (s.drop 4)
        (by simp only [List.length_drop]; omega)
      refine ⟨p, r, ?_, ?_⟩
      · simp only [printLoop, if_pos hl, sliceTo, sliceFrom, if_pos h4, Option.bind]
        exact h1
      · rw [h2, intercalate_codeGroups_long hl]
        simp only [List.append_assoc]
    · refine ⟨prc, s, ?_, ?_⟩
      · simp only [printLoop, if_neg hl]
      · rw [intercalate_codeGroups_short (by omega)]

/-! ## Lemmas: `ParseIBAN` against the specification pipeline -/

theorem FindString_of_no_header {s : List Char} (h : hasHeader s = false) :
    twoUpperTwoDigits.FindString s = [] := by
  unfold twoUpperTwoDigits.FindString
  unfold hasHeader at h
  split
  · next a b c d rest =>
    simp only at h
    rw [if_neg (by rw [h]; simp)]
  · rfl

theorem header_cases {s : List Char} (h : hasHeader s = true) :
    ∃ a b c d rest, s = a :: b :: c :: d :: rest ∧
      twoUpperTwoDigits.FindString s = [a, b, c, d] := by
  unfold hasHeader at h
  split at h
  · next a b c d rest =>
    refine ⟨a, b, c, d, rest, rfl, ?_⟩
    simp only [twoUpperTwoDigits.FindString, if_pos h]
  · cases h

/-- In every registry state under the cache invariant, `ParseIBAN` does not
panic, returns what the specification pipeline returns on the normalized
input, and leaves the registry under the cache invariant. -/
theorem ParseIBAN_eq_specParse (up : Char → Char) {reg : Registry} (hreg : CacheOK reg)
    (x : List Char) :
    ∃ reg1, ParseIBAN up reg x = some (specParse (normalize up x), reg1) ∧ CacheOK reg1 := by
  have hnorm : ToUpper up (allWhiteSpaces.ReplaceAllString x) = normalize up x := rfl
  simp only [ParseIBAN, hnorm, numUpperOnly.MatchString]
  generalize normalize up x = s
  by_cases h1 : s.all isNumUpper = true
  swap
  · have h1f : s.all isNumUpper = false := by simpa using h1
    refine ⟨reg, ?_, hreg⟩
    simp [specParse, h1f]
  by_cases h2 : hasHeader s = true
  swap
  · have h2f : hasHeader s = false := by simpa using h2
    refine ⟨reg, ?_, hreg⟩
    simp [specParse, h1, h2f, FindString_of_no_header h2f]
  obtain ⟨a, b, c, d, rest, rfl, hfs⟩ := header_cases h2
  have hsl1 : slice [a, b, c, d] 0 2 = some [a, b] := rfl
  have hsl2 : slice [a, b, c, d] 2 4 = some [c, d] := rfl
  have hsf : sliceFrom (a :: b :: c :: d :: rest) 4 = some rest := by
    simp [sliceFrom]
  have hne : ([a, b, c, d] : List Char) ≠ [] := by simp
  simp only [h1, hfs, hsl1, hsl2, hsf, Option.some_bind, specParse, h2, List.take, List.drop,
    Bool.not_true, if_neg hne, if_false, Bool.true_eq_false, Bool.false_eq_true]
  rcases get_of_forall2 [a, b] hreg with ⟨h0, hg⟩ | ⟨cs0, cs, h0, hg, hcs⟩
  · exact ⟨reg, by rw [h0, hg], hreg⟩
  rw [h0, hg]
  simp only [hcs.1]
  by_cases hlen : (a :: b :: c :: d :: rest).length = cs0.Length
  swap
  · exact ⟨reg, by simp only [ne_eq, hlen, not_false_eq_true, if_true], hreg⟩
  obtain ⟨re, hre, hpos, hL⟩ := countries_get_ok h0
  obtain ⟨cs1, hv, hcs1⟩ := validate_of_cacheState rest hcs hre
  have hrl : rest.length = (rePositions re).length := by
    rw [hpos]; simp only [List.length_cons] at hlen; omega
  have hms : Regexp.MatchString re rest = matchesLayout cs0.Format rest := by
    rw [MatchString_of_length hrl, hpos]; rfl
  rw [hms] at hv
  have hreg1 : CacheOK (reg.set [a, b] cs1) := set_of_forall2 [a, b] hreg h0 hcs1
  refine ⟨reg.set [a, b] cs1, ?_, hreg1⟩
  have hlen4 : 4 ≤ (a :: b :: c :: d :: rest).length := by simp
  obtain ⟨p, r, hp, hpr⟩ := printLoop_eq (a :: b :: c :: d :: rest).length []
    (a :: b :: c :: d :: rest) (Nat.le_refl _)
  rw [hv, validateCheckDigits_eq hlen4 h1, hp]
  simp only [ne_eq, hlen, not_true_eq_false, if_false, Option.some_bind]
  cases hml : matchesLayout cs0.Format rest
  · simp
  · by_cases hmod : mod97Number (a :: b :: c :: d :: rest) % 97 = 1
    · simp [hmod, hpr]
    · simp [hmod]

theorem cacheOK_of_reachable {up : Char → Char} {reg : Registry} (h : Reachable up reg) :
    CacheOK reg := by
  induction h with
  | init => exact cacheOK_countries
  | @step reg reg1 s out _ hstep ih =>
    obtain ⟨reg2, h1, h2⟩ := ParseIBAN_eq_specParse up ih s
    rw [h1] at hstep
    cases hstep
    exact h2

/-- The result of `ParseIBAN` in any reachable registry state. -/
theorem ParseIBAN_reachable {up : Char → Char} {reg : Registry} (h : Reachable up reg)
    (x : List Char) :
    ∃ reg1, ParseIBAN up reg x = some (specParse (normalize up x), reg1) ∧
      Reachable up reg1 := by
  obtain ⟨reg1, h1, -⟩ := ParseIBAN_eq_specParse up (cacheOK_of_reachable h) x
  exact ⟨reg1, h1, Reachable.step h h1⟩

/-- The specification pipeline succeeds exactly on accepted strings, and then
with the fields cut from the string. -/
theorem specParse_ok_iff (s : List Char) (r : IBAN) :
    specParse s = .ok r ↔
      Accepted s ∧
        r = { Code := s, PrintCode := List.intercalate [' '] (codeGroups s),
              CountryCode := s.take 2, CheckDigits := (s.drop 2).take 2, BBAN := s.drop 4 } := by
  unfold specParse Accepted
  by_cases h1 : s.all isNumUpper = true
  swap
  · have h1f : s.all isNumUpper = false := by simpa using h1
    simp [h1f]
  by_cases h2 : hasHeader s = true
  swap
  · have h2f : hasHeader s = false := by simpa using h2
    simp [h1, h2f]
  cases hg : countries.get (s.take 2) with
  | none => simp [h1, h2]
  | some cs =>
    by_cases h4 : s.length = cs.Length
    swap
    · simp [h1, h2, h4]
    cases h5 : matchesLayout cs.Format (s.drop 4)
    · simp [h1, h2, h4, h5]
    by_cases h6 : mod97Number s % 97 = 1
    swap
    · simp [h1, h2, h4, h5, h6]
    simp only [h1, h2, h4, h5, h6, Bool.true_eq_false, if_false, ne_eq, not_true_eq_false,
      Except.ok.injEq, Option.some.injEq, true_and, exists_eq_left', and_self]
    exact eq_comm


/-- An accepted string has its four header characters. -/
theorem Accepted.four_le {s : List Char} (h : Accepted s) : 4 ≤ s.length := by
  obtain ⟨a, b, c, d, rest, rfl, -⟩ := header_cases h.2.1
  simp


/-- A filter that drops the space and keeps every character of `s` undoes the
grouping of `s`. -/
theorem filter_intercalate_codeGroups (p : Char → Bool) (hp : p ' ' = false) :
    ∀ (n : Nat) (s : List Char), s.length ≤ n → (∀ c ∈ s, p c = true) →
      (List.intercalate [' '] (codeGroups s)).filter p = s := by
  intro n
  induction n with
  | zero =>
    intro s hn _
    have : s = [] := List.length_eq_zero.mp (by omega)
    subst this; rfl
  | succ n ih =>
    intro s hn hs
    by_cases hl : 4 < s.length
    · rw [intercalate_codeGroups_long hl, List.filter_append, List.filter_append,
        ih (s.drop 4) (by simp only [List.length_drop]; omega)
          (fun c hc => hs c (List.mem_of_mem_drop hc))]
      have h1 : (s.take 4).filter p = s.take 4 :=
        List.filter_eq_self.mpr (fun c hc => hs c (List.mem_of_mem_take hc))
      have h2 : ([' '] : List Char).filter p = [] := by simp [hp]
      rw [h1, h2, List.nil_append, List.take_append_drop]
    · rw [intercalate_codeGroups_short (by omega)]
      exact List.filter_eq_self.mpr hs

theorem length_intercalate_codeGroups :
    ∀ (n : Nat) (s : List Char), s.length ≤ n → s ≠ [] →
      (List.intercalate [' '] (codeGroups s)).length = s.length + (s.length + 3) / 4 - 1 := by
  intro n
  induction n with
  | zero =>
    intro s hn hne
    exact absurd (List.length_eq_zero.mp (by omega)) hne
  | succ n ih =>
    intro s hn hne
    have hpos : 0 < s.length := List.length_pos.mpr hne
    by_cases hl : 4 < s.length
    · have hd : s.drop 4 ≠ [] := by
        intro h0
        have := congrArg List.length h0
        simp only [List.length_drop, List.length_nil] at this
        omega
      rw [intercalate_codeGroups_long hl, List.length_append, List.length_append,
        ih (s.drop 4) (by simp only [List.length_drop]; omega) hd]
      simp only [List.length_take, List.length_drop, List.length_singleton]
      omega
    · rw [intercalate_codeGroups_short (by omega)]
      omega

theorem head?_intercalate_codeGroups (s : List Char) :
    (List.intercalate [' '] (codeGroups s)).head? = s.head? := by
  by_cases hl : 4 < s.length
  · rw [intercalate_codeGroups_long hl, List.head?_append]
    cases s with
    | nil => simp at hl
    | cons a s => simp
  · rw [intercalate_codeGroups_short (by omega)]

theorem getLast?_intercalate_codeGroups :
    ∀ (n : Nat) (s : List Char), s.length ≤ n →
      (List.intercalate [' '] (codeGroups s)).getLast? = s.getLast? := by
  intro n
  induction n with
  | zero =>
    intro s hn
    have : s = [] := List.length_eq_zero.mp (by omega)
    subst this; rfl
  | succ n ih =>
    intro s hn
    by_cases hl : 4 < s.length
    · have hd : ¬ s.length ≤ 4 := by omega
      rw [intercalate_codeGroups_long hl, List.getLast?_append, List.getLast?_append,
        ih (s.drop 4) (by simp only [List.length_drop]; omega), List.getLast?_drop, if_neg hd]
      cases hlast : s.getLast? with
      | none =>
        rw [List.getLast?_eq_none_iff] at hlast
        subst hlast; simp at hl
      | some c => simp
    · rw [intercalate_codeGroups_short (by omega)]

/-- The group of index `i` is the slice `code[4i : min(4i+4, N)]`. -/
theorem codeGroups_getElem (s : List Char) (i : Nat) (hi : i < (codeGroups s).length) :
    (codeGroups s)[i] = (s.take (min (4 * i + 4) s.length)).drop (4 * i) := by
  simp only [codeGroups, List.getElem_map, List.getElem_range]
  rw [List.drop_take]
  by_cases h : 4 * i + 4 ≤ s.length
  · rw [Nat.min_eq_left h]
    congr 1; omega
  · rw [Nat.min_eq_right (by omega)]
    rw [List.take_of_length_le (by simp only [List.length_drop]; omega),
      List.take_of_length_le (by simp only [List.length_drop]; omega)]

theorem codeGroups_getElem_length (s : List Char) (i : Nat) (hi : i < (codeGroups s).length) :
    ((codeGroups s)[i]).length = min 4 (s.length - 4 * i) := by
  rw [codeGroups_getElem s i hi]
  simp only [List.length_drop, List.length_take]
  omega

theorem mem_of_mem_codeGroups {s g : List Char} (hg : g ∈ codeGroups s) {c : Char}
    (hc : c ∈ g) : c ∈ s := by
  simp only [codeGroups, List.mem_map, List.mem_range] at hg
  obtain ⟨i, -, rfl⟩ := hg
  exact List.mem_of_mem_drop (List.mem_of_mem_take hc)

theorem ne_space_of_isNumUpper {c : Char} (h : isNumUpper c = true) : c ≠ ' ' := by
  rintro rfl
  exact absurd h (by decide)

/-- What a successful call returns, in any reachable registry state: the
normalized input is accepted and the result is cut from it. -/
theorem result_of_ok {up : Char → Char} {reg reg1 : Registry} (hreg : Reachable up reg)
    {x : List Char} {r : IBAN} (h : ParseIBAN up reg x = some (.ok r, reg1)) :
    Accepted (normalize up x) ∧
      r = { Code := normalize up x,
            PrintCode := List.intercalate [' '] (codeGroups (normalize up x)),
            CountryCode := (normalize up x).take 2,
            CheckDigits := ((normalize up x).drop 2).take 2,
            BBAN := (normalize up x).drop 4 } := by
  obtain ⟨reg2, hp, -⟩ := ParseIBAN_reachable hreg x
  rw [hp] at h
  simp only [Option.some.injEq, Prod.mk.injEq] at h
  exact (specParse_ok_iff _ r).mp h.1

theorem toUpperRune_of_isNumUpper (up : Char → Char) {c : Char} (h : isNumUpper c = true) :
    toUpperRune up c = c := by
  simp only [isNumUpper, isDigit, isUpper, Bool.or_eq_true, Bool.and_eq_true,
    decide_eq_true_eq] at h
  have h1 : c.toNat < 128 := by omega
  have h2 : isLower c = false := by
    simp only [isLower, Bool.and_eq_false_iff, decide_eq_false_iff_not]
    omega
  simp [toUpperRune, h1, h2]

theorem isSpace_of_isNumUpper {c : Char} (h : isNumUpper c = true) : isSpace c = false := by
  simp only [isNumUpper, isDigit, isUpper, Bool.or_eq_true, Bool.and_eq_true,
    decide_eq_true_eq] at h
  simp only [isSpace, Bool.or_eq_false_iff, decide_eq_false_iff_not]
  omega

theorem ToUpper_of_all_isNumUpper (up : Char → Char) {s : List Char}
    (h : s.all isNumUpper = true) : ToUpper up s = s := by
  unfold ToUpper
  conv_rhs => rw [← List.map_id s]
  apply List.map_congr_left
  intro c hc
  exact toUpperRune_of_isNumUpper up (List.all_eq_true.mp h c hc)

/-- A string of `[0-9A-Z]` is its own normal form. -/
theorem normalize_of_all_isNumUpper (up : Char → Char) {s : List Char}
    (h : s.all isNumUpper = true) : normalize up s = s := by
  unfold normalize allWhiteSpaces.ReplaceAllString
  have : s.filter (fun c => !isSpace c) = s :=
    List.filter_eq_self.mpr (fun c hc => by
      simp [isSpace_of_isNumUpper (List.all_eq_true.mp h c hc)])
  rw [this, ToUpper_of_all_isNumUpper up h]

/-- The printable form of a string of `[0-9A-Z]` normalizes back to it. -/
theorem normalize_intercalate_codeGroups (up : Char → Char) {s : List Char}
    (h : s.all isNumUpper = true) :
    normalize up (List.intercalate [' '] (codeGroups s)) = s := by
  unfold normalize allWhiteSpaces.ReplaceAllString
  rw [filter_intercalate_codeGroups (fun c => !isSpace c) (by decide) _ s (Nat.le_refl _)
    (fun c hc => by simp [isSpace_of_isNumUpper (List.all_eq_true.mp h c hc)])]
  exact ToUpper_of_all_isNumUpper up h

theorem isUpper_ofNat_sub {n : Nat} (h1 : 97 ≤ n) (h2 : n ≤ 122) :
    isUpper (Char.ofNat (n - 32)) = true := by
  interval_cases n <;> rfl

/-- Under the two table facts, upper-casing a code point twice is upper-casing
it once. -/
theorem toUpperRune_idem {up : Char → Char} (hup : UpperTable up) (c : Char) :
    toUpperRune up (toUpperRune up c) = toUpperRune up c := by
  by_cases h1 : c.toNat < 128
  · by_cases h2 : isLower c = true
    · have hl := h2
      simp only [isLower, Bool.and_eq_true, decide_eq_true_eq] at hl
      have hu : isNumUpper (Char.ofNat (c.toNat - 32)) = true := by
        simp [isNumUpper, isUpper_ofNat_sub hl.1 hl.2]
      have he : toUpperRune up c = Char.ofNat (c.toNat - 32) := by
        simp [toUpperRune, h1, h2]
      rw [he]
      exact toUpperRune_of_isNumUpper up hu
    · have he : toUpperRune up c = c := by
        simp [toUpperRune, h1, h2]
      rw [he, he]
  · have he : toUpperRune up c = up c := by
      simp [toUpperRune, h1]
    rw [he]
    exact (hup c (by omega)).2

/-- Under the two table facts, upper-casing does not produce white space. -/
theorem isSpace_toUpperRune {up : Char → Char} (hup : UpperTable up) {c : Char}
    (hc : isSpace c = false) : isSpace (toUpperRune up c) = false := by
  by_cases h1 : c.toNat < 128
  · by_cases h2 : isLower c = true
    · have hl := h2
      simp only [isLower, Bool.and_eq_true, decide_eq_true_eq] at hl
      have hu : isNumUpper (Char.ofNat (c.toNat - 32)) = true := by
        simp [isNumUpper, isUpper_ofNat_sub hl.1 hl.2]
      have he : toUpperRune up c = Char.ofNat (c.toNat - 32) := by
        simp [toUpperRune, h1, h2]
      rw [he]
      exact isSpace_of_isNumUpper hu
    · have he : toUpperRune up c = c := by
        simp [toUpperRune, h1, h2]
      rw [he]; exact hc
  · have he : toUpperRune up c = up c := by
      simp [toUpperRune, h1]
    rw [he]
    exact (hup c (by omega)).1

/-- Under the two table facts, normalization is idempotent. -/
theorem normalize_idem {up : Char → Char} (hup : UpperTable up) (x : List Char) :
    normalize up (normalize up x) = normalize up x := by
  unfold normalize allWhiteSpaces.ReplaceAllString ToUpper
  have h1 : ((x.filter (fun c => !isSpace c)).map (toUpperRune up)).filter
      (fun c => !isSpace c) = (x.filter (fun c => !isSpace c)).map (toUpperRune up) := by
    apply List.filter_eq_self.mpr
    intro c hc
    rw [List.mem_map] at hc
    obtain ⟨d, hd, rfl⟩ := hc
    have hd2 := (List.mem_filter.mp hd).2
    have hd3 : isSpace d = false := by simpa using hd2
    simp [isSpace_toUpperRune hup hd3]
  rw [h1, List.map_map]
  apply List.map_congr_left
  intro c _
  exact toUpperRune_idem hup c

theorem upperTable_asciiImages : UpperTable asciiImages := by
  intro c hc
  have hsp : isSpace c = false := by
    simp only [isSpace, Bool.or_eq_false_iff, decide_eq_false_iff_not]
    omega
  unfold asciiImages
  by_cases h1 : c.toNat = 305
  · rw [if_pos h1]; exact ⟨rfl, rfl⟩
  · rw [if_neg h1]
    by_cases h2 : c.toNat = 383
    · rw [if_pos h2]; exact ⟨rfl, rfl⟩
    · rw [if_neg h2]
      refine ⟨hsp, ?_⟩
      have h3 : ¬ c.toNat < 128 := by omega
      simp only [toUpperRune, if_neg h3, asciiImages, if_neg h1, if_neg h2]

/-- Every match of `formatParts` is a class letter followed by two digits. -/
theorem findAll_valid (format : List Char) :
    ∀ t ∈ formatParts.FindAllString format,
      (classOfLetter t.1).isSome = true ∧ isDigit t.2.1 = true ∧ isDigit t.2.2 = true := by
  induction format using formatParts.FindAllString.induct with
  | case1 a b c rest h ih =>
    intro t ht
    rw [formatParts.FindAllString, if_pos h] at ht
    rcases List.mem_cons.mp ht with rfl | ht
    · simpa [Bool.and_eq_true, and_assoc] using h
    · exact ih t ht
  | case2 a b c rest h ih =>
    intro t ht
    rw [formatParts.FindAllString, if_neg h] at ht
    exact ih t ht
  | case3 s hs =>
    intro t ht
    rw [formatParts.FindAllString] at ht
    · cases ht
    · exact hs

theorem Atoi_two_digits {b c : Char} (hb : isDigit b = true) (hc : isDigit c = true) :
    Atoi [b, c] = some (10 * (b.toNat - 48) + (c.toNat - 48)) := by
  have h : ([b, c] : List Char) ≠ [] ∧ [b, c].all isDigit = true := by
    simp [hb, hc]
  simp only [Atoi, parseDecimal, if_pos h, List.foldl_cons, List.foldl_nil, Nat.mul_zero,
    Nat.zero_add]

theorem two_digits_le {b c : Char} (hb : isDigit b = true) (hc : isDigit c = true) :
    10 * (b.toNat - 48) + (c.toNat - 48) ≤ 99 := by
  simp only [isDigit, Bool.and_eq_true, decide_eq_true_eq] at hb hc
  omega

theorem loop_eq (fps : List (Char × Char × Char)) (bbr : List (Option CharClass × Nat))
    (h : ∀ t ∈ fps, isDigit t.2.1 = true ∧ isDigit t.2.2 = true) :
    compileFormat.loop fps bbr = .ok (bbr ++ fps.map pieceOf) := by
  induction fps generalizing bbr with
  | nil => simp [compileFormat.loop]
  | cons t fps ih =>
    obtain ⟨a, b, c⟩ := t
    have ht := h (a, b, c) (List.mem_cons_self _ _)
    simp only [compileFormat.loop, Atoi_two_digits ht.1 ht.2]
    rw [ih _ (fun t ht => h t (List.mem_cons_of_mem _ ht))]
    simp [pieceOf]

theorem regexpParse_map (fps : List (Char × Char × Char))
    (h : ∀ t ∈ fps, (classOfLetter t.1).isSome = true ∧ isDigit t.2.1 = true ∧
      isDigit t.2.2 = true) :
    regexpParse (fps.map pieceOf) =
      .ok (fps.filterMap fun (a, b, c) =>
        (classOfLetter a).map fun cls => (cls, 10 * (b.toNat - 48) + (c.toNat - 48))) := by
  induction fps with
  | nil => rfl
  | cons t fps ih =>
    obtain ⟨a, b, c⟩ := t
    obtain ⟨h1, h2, h3⟩ := h (a, b, c) (List.mem_cons_self _ _)
    obtain ⟨cls, hcls⟩ := Option.isSome_iff_exists.mp h1
    have hle : 10 * (b.toNat - 48) + (c.toNat - 48) ≤ 1000 :=
      Nat.le_trans (two_digits_le h2 h3) (by decide)
    simp only [List.map_cons, pieceOf, hcls, regexpParse, if_pos hle,
      ih (fun t ht => h t (List.mem_cons_of_mem _ ht)), List.filterMap_cons, Option.map_some']

theorem regexpSize_map (fps : List (Char × Char × Char))
    (h : ∀ t ∈ fps, (classOfLetter t.1).isSome = true) :
    regexpSize (fps.map pieceOf) =
      exprSize (fps.filterMap fun (a, b, c) =>
        (classOfLetter a).map fun cls => (cls, 10 * (b.toNat - 48) + (c.toNat - 48))) := by
  induction fps with
  | nil => rfl
  | cons t fps ih =>
    obtain ⟨a, b, c⟩ := t
    obtain ⟨cls, hcls⟩ := Option.isSome_iff_exists.mp (h (a, b, c) (List.mem_cons_self _ _))
    have := ih (fun t ht => h t (List.mem_cons_of_mem _ ht))
    simp only [regexpSize, exprSize] at this ⊢
    simp only [List.map_cons, pieceOf, hcls, List.filterMap_cons, Option.map_some',
      List.sum_cons, this]

/-- What `compileFormat` returns on any descriptor: the list of the tokens
`formatParts` finds in it, unless their expression is over the size limit. -/
theorem compileFormat_eq (format : List Char) :
    compileFormat format =
      if exprSize (layoutTokens format) > maxSize then .error .errRegexp
      else .ok (layoutTokens format) := by
  have hv := findAll_valid format
  simp only [compileFormat, loop_eq _ [] (fun t ht => (hv t ht).2), List.nil_append,
    regexpCompile, regexpParse_map _ hv, regexpSize_map _ (fun t ht => (hv t ht).1),
    layoutTokens]

theorem compileFormat_of_le {format : List Char}
    (h : exprSize (layoutTokens format) ≤ maxSize) :
    compileFormat format = .ok (layoutTokens format) := by
  rw [compileFormat_eq, if_neg (by omega)]

theorem compileFormat_ok {format : List Char} {re : Regexp}
    (h : compileFormat format = .ok re) : re = layoutTokens format := by
  rw [compileFormat_eq] at h
  split at h
  · cases h
  · cases h; rfl

theorem rePositions_layoutTokens (format : List Char) :
    rePositions (layoutTokens format) = layoutPositions format := rfl

/-- A descriptor that is entirely tokens is matched by `formatParts` token by
token. -/
theorem findAll_of_parseLayout (format : List Char) :
    ∀ toks, parseLayout format = some toks → layoutTokens format = toks := by
  induction format using parseLayout.induct with
  | case1 =>
    intro toks h
    simp only [parseLayout, Option.some.injEq] at h
    subst h; rfl
  | case2 a b c rest cls hcls hd ih =>
    intro toks h
    simp only [parseLayout, hcls, if_pos hd] at h
    cases hp : parseLayout rest with
    | none => rw [hp] at h; cases h
    | some toks0 =>
      rw [hp] at h
      simp only [Option.map_some', Option.some.injEq] at h
      subst h
      have hfa : ((classOfLetter a).isSome && isDigit b && isDigit c) = true := by
        simp only [Bool.and_eq_true] at hd
        simp [hcls, hd.1, hd.2]
      have := ih toks0 hp
      simp only [layoutTokens] at this ⊢
      rw [formatParts.FindAllString, if_pos hfa, List.filterMap_cons]
      simp only [hcls, Option.map_some', this]
  | case3 a b c rest cls hcls hd =>
    intro toks h
    simp only [parseLayout, hcls, if_neg hd] at h
    cases h
  | case4 a b c rest hcls =>
    intro toks h
    simp only [parseLayout, hcls] at h
    cases h
  | case5 s h1 h2 =>
    intro toks h
    rw [parseLayout] at h
    · cases h
    · exact h1
    · exact h2

/-- A check on one entry of `countries`: `Format` is entirely tokens, `Length`
is four more than the sum of their counts, and `compileFormat` returns these
tokens. -/
theorem countries_layouts :
    countries.all (fun e =>
      match parseLayout e.2.Format with
      | some toks =>
        decide (e.2.Length = 4 + (toks.map Prod.snd).sum) &&
          decide (compileFormat e.2.Format = .ok toks)
      | none => false) = true := by
  decide

/-- The error of the BBAN check on an entry whose layout compiles and whose
`re` is `nil` or the compiled `Format`: it is decided by a search of the
compiled layout in `bban`. -/
theorem validate_fst {cs : countrySettings} {re : Regexp} (bban : List Char)
    (hc : compileFormat cs.Format = .ok re)
    (hre : ∀ r, cs.re = some r → compileFormat cs.Format = .ok r) :
    (cs.validateBasicBankAccountNumber bban).1 =
      if Regexp.MatchString re bban = true then none
      else some .errBBANMalformat := by
  have hcs : cacheState cs cs := ⟨rfl, rfl, hre⟩
  obtain ⟨cs1, h, -⟩ := validate_of_cacheState bban hcs hc
  rw [h]

theorem matchesLayout_length {format b : List Char} (h : matchesLayout format b = true) :
    b.length = (layoutPositions format).length :=
  (matchesClasses_length h).symm

theorem ofDigits_reverse_eq_foldl (ds : List Nat) :
    Nat.ofDigits 10 ds.reverse = ds.foldl (fun n d => d + 10 * n) 0 := by
  rw [Nat.ofDigits_eq_foldr, List.foldr_reverse]
  simp

theorem stream_foldl (ds : List Nat) (a : Nat) :
    ds.foldl (fun acc d => (acc * 10 + d) % 97) (a % 97) =
      ds.foldl (fun n d => d + 10 * n) a % 97 := by
  induction ds generalizing a with
  | nil => rfl
  | cons d ds ih =>
    simp only [List.foldl_cons]
    have : (a % 97 * 10 + d) % 97 = (d + 10 * a) % 97 := by omega
    rw [this, ih]

/-- Streaming reduction gives the remainder of the number the digits denote. -/
theorem streamMod97_eq (ds : List Nat) :
    streamMod97 ds = Nat.ofDigits 10 ds.reverse % 97 := by
  rw [ofDigits_reverse_eq_foldl, ← stream_foldl ds 0]
  rfl

theorem map_toNat_digitChar (ds : List Nat) (h : ∀ d ∈ ds, d < 10) :
    (ds.map digitChar).map (fun c => c.toNat - 48) = ds := by
  induction ds with
  | nil => rfl
  | cons d ds ih =>
    simp only [List.map_cons]
    rw [ih (fun x hx => h x (List.mem_cons_of_mem _ hx)),
      digitChar_toNat (h d (List.mem_cons_self _ _))]
    simp

/-- The string `mods` that the loop of `validateCheckDigits` builds from a
string of at least four characters of `[0-9A-Z]`: its digits are the letter
expansion of the rearranged string, and it parses to the number `N`. -/
theorem mods_eq {s : List Char} (hlen : 4 ≤ s.length) (hs : s.all isNumUpper = true) :
    ((s.drop 4 ++ s.take 4).foldl (fun mods c => mods ++ expandRune c) []).map
        (fun c => c.toNat - 48) = (s.drop 4 ++ s.take 4).flatMap letterDigits ∧
      SetString ((s.drop 4 ++ s.take 4).foldl (fun mods c => mods ++ expandRune c) []) =
        some ((mod97Number s : Nat) : Int) := by
  have hall : (s.drop 4 ++ s.take 4).all isNumUpper = true := by
    rw [List.all_eq_true] at hs ⊢
    intro c hc
    rw [List.mem_append] at hc
    rcases hc with hc | hc
    · exact hs c (List.mem_of_mem_drop hc)
    · exact hs c (List.mem_of_mem_take hc)
  have hne : (s.drop 4 ++ s.take 4).flatMap letterDigits ≠ [] := by
    cases s with
    | nil => simp at hlen
    | cons c s =>
      intro h
      have h3 : (((c :: s).drop 4 ++ (c :: s).take 4).flatMap letterDigits).length = 0 := by
        rw [h]; rfl
      have h4 := letterDigits_ne_nil c
      simp [List.flatMap_append, List.take, List.flatMap_cons] at h3
      exact h4 h3.2.1
  rw [foldl_expand, List.nil_append, flatMap_expand hall]
  exact ⟨map_toNat_digitChar _ (flatMap_letterDigits_lt hall),
    SetString_digitChar hne (flatMap_letterDigits_lt hall)⟩

/-- The specification pipeline has no outcome `errFailed`. -/
theorem specParse_ne_errFailed (s : List Char) : specParse s ≠ .error .errFailed := by
  unfold specParse
  split
  · simp
  split
  · simp
  split
  · simp
  split
  · simp
  split
  · simp
  split
  · simp
  · simp

theorem countries_re_none : countries.all (fun e => e.2.re.isNone) = true := by decide

theorem validateCheckDigits_isSome {s : List Char} (hlen : 4 ≤ s.length) :
    (validateCheckDigits s).isSome = true := by
  simp only [validateCheckDigits, sliceFrom, sliceTo, if_pos hlen, Option.some_bind]
  split
  · rfl
  · split <;> rfl

theorem FindString_cases (s : List Char) :
    twoUpperTwoDigits.FindString s = [] ∨
      ∃ a b c d rest, s = a :: b :: c :: d :: rest ∧
        twoUpperTwoDigits.FindString s = [a, b, c, d] := by
  cases h : hasHeader s
  · exact Or.inl (FindString_of_no_header h)
  · exact Or.inr (header_cases h)

/-- In any registry state whatever, `ParseIBAN` returns: no slice is out of
range and the print loop has fuel enough. -/
theorem ParseIBAN_isSome (up : Char → Char) (reg : Registry) (x : List Char) :
    (ParseIBAN up reg x).isSome = true := by
  have hnorm : ToUpper up (allWhiteSpaces.ReplaceAllString x) = normalize up x := rfl
  simp only [ParseIBAN, hnorm, numUpperOnly.MatchString]
  generalize normalize up x = s
  by_cases h1 : s.all isNumUpper = true
  swap
  · have h1f : s.all isNumUpper = false := by simpa using h1
    simp [h1f]
  rcases FindString_cases s with hfs | ⟨a, b, c, d, rest, rfl, hfs⟩
  · simp [h1, hfs]
  have hsl1 : slice [a, b, c, d] 0 2 = some [a, b] := rfl
  have hsl2 : slice [a, b, c, d] 2 4 = some [c, d] := rfl
  have hsf : sliceFrom (a :: b :: c :: d :: rest) 4 = some rest := by
    simp [sliceFrom]
  have hne : ([a, b, c, d] : List Char) ≠ [] := by simp
  simp only [h1, hfs, hsl1, hsl2, hsf, Option.some_bind, Bool.not_true, if_neg hne,
    if_false, Bool.false_eq_true]
  cases hg : reg.get [a, b] with
  | none => rfl
  | some cs =>
    simp only []
    by_cases hlen : (a :: b :: c :: d :: rest).length = cs.Length
    swap
    · simp only [ne_eq, hlen, not_false_eq_true, if_true, Option.isSome_some]
    simp only [ne_eq, hlen, not_true_eq_false, if_false]
    rcases hv : cs.validateBasicBankAccountNumber rest with ⟨e, cs1⟩
    cases e with
    | some err => rfl
    | none =>
      have hlen4 : 4 ≤ (a :: b :: c :: d :: rest).length := by simp
      obtain ⟨p, r, hp, -⟩ := printLoop_eq (a :: b :: c :: d :: rest).length []
        (a :: b :: c :: d :: rest) (Nat.le_refl _)
      simp only [validateCheckDigits_eq hlen4 h1, Option.some_bind]
      rw [← hlen, hp]
      by_cases hmod : mod97Number (a :: b :: c :: d :: rest) % 97 = 1
      · simp [hmod]
      · simp [hmod]

theorem countries_length_ge {k : List Char} {cs : countrySettings}
    (h : countries.get k = some cs) : 4 ≤ cs.Length := by
  obtain ⟨re, -, -, hL⟩ := countries_get_ok h
  omega

theorem isUpper_of_isDigit {c : Char} (h : isDigit c = true) : isUpper c = false := by
  simp only [isDigit, Bool.and_eq_true, decide_eq_true_eq] at h
  simp only [isUpper, Bool.and_eq_false_iff, decide_eq_false_iff_not]
  omega

theorem isLower_of_isDigit {c : Char} (h : isDigit c = true) : isLower c = false := by
  simp only [isDigit, Bool.and_eq_true, decide_eq_true_eq] at h
  simp only [isLower, Bool.and_eq_false_iff, decide_eq_false_iff_not]
  omega

/-- Every class of a layout holds all digits or none. -/
theorem mem_digit_eq (cls : CharClass) {d e : Char} (hd : isDigit d = true)
    (he : isDigit e = true) : cls.mem d = cls.mem e := by
  cases cls <;>
    simp [CharClass.mem, hd, he, isUpper_of_isDigit hd, isUpper_of_isDigit he,
      isLower_of_isDigit hd, isLower_of_isDigit he]

theorem matchesClasses_replace_digit (classes : List CharClass) (pre post : List Char)
    {d e : Char} (hd : isDigit d = true) (he : isDigit e = true) :
    matchesClasses classes (pre ++ d :: post) = matchesClasses classes (pre ++ e :: post) := by
  induction pre generalizing classes with
  | nil =>
    cases classes with
    | nil => rfl
    | cons cls classes => simp only [List.nil_append, matchesClasses, mem_digit_eq cls hd he]
  | cons c pre ih =>
    cases classes with
    | nil => rfl
    | cons cls classes => simp only [List.cons_append, matchesClasses, List.append_eq, ih]

theorem all_isNumUpper_replace_digit {pre post : List Char} {d e : Char}
    (he : isDigit e = true) (h : (pre ++ d :: post).all isNumUpper = true) :
    (pre ++ e :: post).all isNumUpper = true := by
  simp only [List.all_append, List.all_cons, Bool.and_eq_true] at h ⊢
  exact ⟨h.1, by simp [isNumUpper, he], h.2.2⟩

/-- The rearrangement `s[4:] ++ s[:4]` moves the character at a given place to
a place that does not depend on the character. -/
theorem rearrange_replace (n : Nat) (pre post : List Char) :
    ∃ A B : List Char, ∀ x : Char,
      (pre ++ x :: post).drop n ++ (pre ++ x :: post).take n = A ++ x :: B := by
  by_cases h : n ≤ pre.length
  · refine ⟨pre.drop n, post ++ pre.take n, fun x => ?_⟩
    rw [List.drop_append_of_le_length h, List.take_append_of_le_length h]
    simp
  · refine ⟨post.drop (n - pre.length - 1) ++ pre, post.take (n - pre.length - 1), fun x => ?_⟩
    have h1 : n = pre.length + (n - pre.length - 1 + 1) := by omega
    rw [h1, List.drop_append, List.take_append]
    simp

theorem letterDigits_of_isDigit {c : Char} (h : isDigit c = true) :
    letterDigits c = [c.toNat - 48] := by
  simp [letterDigits, isUpper_of_isDigit h]

/-- The number read from `A ++ x :: B` with `x` a digit, split at `x`. -/
theorem ofDigits_split (A B : List Char) {x : Char} (hx : isDigit x = true) :
    Nat.ofDigits 10 (((A ++ x :: B).flatMap letterDigits).reverse) =
      Nat.ofDigits 10 ((B.flatMap letterDigits).reverse) +
        10 ^ (B.flatMap letterDigits).length *
          ((x.toNat - 48) + 10 * Nat.ofDigits 10 ((A.flatMap letterDigits).reverse)) := by
  have : (A ++ x :: B).flatMap letterDigits =
      A.flatMap letterDigits ++ ([x.toNat - 48] ++ B.flatMap letterDigits) := by
    rw [List.flatMap_append, List.flatMap_cons, letterDigits_of_isDigit hx]
  rw [this, List.reverse_append, List.reverse_append, List.append_assoc, Nat.ofDigits_append,
    List.length_reverse, List.reverse_singleton, Nat.ofDigits_append]
  simp [Nat.ofDigits_singleton]

theorem toNat_sub_ne {d e : Char} (hd : isDigit d = true) (he : isDigit e = true)
    (hne : e ≠ d) : e.toNat - 48 ≠ d.toNat - 48 := by
  simp only [isDigit, Bool.and_eq_true, decide_eq_true_eq] at hd he
  intro h
  apply hne
  have h2 : e.toNat = d.toNat := by omega
  rw [← Char.ofNat_toNat e, ← Char.ofNat_toNat d, h2]

/-- Changing one digit of a string changes its mod-97 value. -/
theorem mod97_replace_digit (pre post : List Char) {d e : Char} (hd : isDigit d = true)
    (he : isDigit e = true) (hne : e ≠ d)
    (h : mod97Number (pre ++ d :: post) % 97 = 1) :
    mod97Number (pre ++ e :: post) % 97 ≠ 1 := by
  obtain ⟨A, B, hAB⟩ := rearrange_replace 4 pre post
  intro h'
  simp only [mod97Number, hAB, ofDigits_split A B hd, ofDigits_split A B he] at h h'
  have hmod : Nat.ModEq 97
      (Nat.ofDigits 10 ((B.flatMap letterDigits).reverse) +
        10 ^ (B.flatMap letterDigits).length *
          ((e.toNat - 48) + 10 * Nat.ofDigits 10 ((A.flatMap letterDigits).reverse)))
      (Nat.ofDigits 10 ((B.flatMap letterDigits).reverse) +
        10 ^ (B.flatMap letterDigits).length *
          ((d.toNat - 48) + 10 * Nat.ofDigits 10 ((A.flatMap letterDigits).reverse))) := by
    unfold Nat.ModEq
    rw [h, h']
  have h1 := Nat.ModEq.add_left_cancel' _ hmod
  have hcop : Nat.gcd 97 (10 ^ (B.flatMap letterDigits).length) = 1 :=
    Nat.Coprime.pow_right _ (by decide)
  have h2 := Nat.ModEq.cancel_left_of_coprime hcop h1
  have h3 := Nat.ModEq.add_right_cancel' _ h2
  have hdd := toNat_sub_ne hd he hne
  simp only [isDigit, Bool.and_eq_true, decide_eq_true_eq] at hd he
  unfold Nat.ModEq at h3
  omega

/-- Replacing a digit of a string that has the header keeps the header, the
country prefix and the verdict of every layout on the part after the header. -/
theorem gates_replace_digit {pre post : List Char} {d e : Char} (hd : isDigit d = true)
    (he : isDigit e = true) (h : hasHeader (pre ++ d :: post) = true) :
    hasHeader (pre ++ e :: post) = true ∧
      (pre ++ e :: post).take 2 = (pre ++ d :: post).take 2 ∧
      ∀ classes, matchesClasses classes ((pre ++ e :: post).drop 4) =
        matchesClasses classes ((pre ++ d :: post).drop 4) := by
  have hu := isUpper_of_isDigit hd
  match pre, h with
  | [], h =>
    obtain ⟨a, b, c, f, rest, hs, -⟩ := header_cases h
    simp only [List.nil_append, List.cons.injEq] at hs
    obtain ⟨rfl, rfl⟩ := hs
    simp [hasHeader, hu] at h
  | [a], h =>
    obtain ⟨a', b, c, f, rest, hs, -⟩ := header_cases h
    simp only [List.cons_append, List.nil_append, List.cons.injEq] at hs
    obtain ⟨rfl, rfl, rfl⟩ := hs
    simp [hasHeader, hu] at h
  | [a, b], h =>
    obtain ⟨a', b', c, f, rest, hs, -⟩ := header_cases h
    simp only [List.cons_append, List.nil_append, List.cons.injEq] at hs
    obtain ⟨rfl, rfl, rfl, rfl⟩ := hs
    simp only [List.cons_append, List.nil_append, hasHeader, Bool.and_eq_true] at h ⊢
    exact ⟨⟨⟨⟨h.1.1.1, h.1.1.2⟩, he⟩, h.2⟩, rfl, fun _ => rfl⟩
  | [a, b, c], h =>
    simp only [List.cons_append, List.nil_append, hasHeader, Bool.and_eq_true] at h ⊢
    exact ⟨⟨⟨⟨h.1.1.1, h.1.1.2⟩, h.1.2⟩, he⟩, rfl, fun _ => rfl⟩
  | a :: b :: c :: f :: pre', h =>
    simp only [List.cons_append, hasHeader] at h ⊢
    refine ⟨h, rfl, fun classes => ?_⟩
    simp only [List.take, List.drop]
    exact (matchesClasses_replace_digit classes pre' post hd he).symm

theorem countries_keys :
    countries.all (fun e =>
      match e.1 with
      | [a, b] => isUpper a && isUpper b
      | _ => false) = true := by
  decide

/-- Every key of `countries` is two upper-case letters. -/
theorem countries_key_cases {cc : List Char} {cs : countrySettings}
    (h : countries.get cc = some cs) :
    ∃ a b, cc = [a, b] ∧ isUpper a = true ∧ isUpper b = true := by
  have hall := List.all_eq_true.mp countries_keys _ (get_mem h)
  rcases cc with _ | ⟨a, _ | ⟨b, _ | ⟨c, rest⟩⟩⟩
  · cases hall
  · cases hall
  · simp only [Bool.and_eq_true] at hall
    exact ⟨a, b, rfl, hall.1, hall.2⟩
  · cases hall

theorem letterDigits_digitChar {d : Nat} (h : d < 10) : letterDigits (digitChar d) = [d] := by
  rw [letterDigits_of_isDigit (isDigit_digitChar h), digitChar_toNat h]
  simp

/-- The number read from a code with a two-letter prefix `k` and two digits
`digitChar p`, `digitChar q`: a hundred times the number read from `b ++ k`,
plus the two digits. -/
theorem mod97Number_split (a c : Char) (b : List Char) {p q : Nat} (hp : p < 10)
    (hq : q < 10) :
    mod97Number ([a, c] ++ [digitChar p, digitChar q] ++ b) =
      100 * Nat.ofDigits 10 (((b ++ [a, c]).flatMap letterDigits).reverse) + (10 * p + q) := by
  have h1 : ([a, c] ++ [digitChar p, digitChar q] ++ b).drop 4 ++
      ([a, c] ++ [digitChar p, digitChar q] ++ b).take 4 =
      (b ++ [a, c]) ++ [digitChar p, digitChar q] := by
    simp
  have h2 : ((b ++ [a, c]) ++ [digitChar p, digitChar q]).flatMap letterDigits =
      (b ++ [a, c]).flatMap letterDigits ++ [p, q] := by
    rw [List.flatMap_append]
    simp [List.flatMap_cons, letterDigits_digitChar hp, letterDigits_digitChar hq]
  rw [mod97Number, h1, h2, List.reverse_append, Nat.ofDigits_append]
  simp [Nat.ofDigits_cons]
  omega

/-- The tokens `formatParts` finds after a part that is entirely tokens. -/
theorem layoutTokens_append (pre : List Char) :
    ∀ (toks : List (CharClass × Nat)) (rest : List Char), parseLayout pre = some toks →
      layoutTokens (pre ++ rest) = toks ++ layoutTokens rest := by
  induction pre using parseLayout.induct with
  | case1 =>
    intro toks rest h
    simp only [parseLayout, Option.some.injEq] at h
    subst h; rfl
  | case2 a b c pre cls hcls hd ih =>
    intro toks rest h
    simp only [parseLayout, hcls, if_pos hd] at h
    cases hp : parseLayout pre with
    | none => rw [hp] at h; cases h
    | some toks0 =>
      rw [hp] at h
      simp only [Option.map_some', Option.some.injEq] at h
      subst h
      have hfa : ((classOfLetter a).isSome && isDigit b && isDigit c) = true := by
        simp only [Bool.and_eq_true] at hd
        simp [hcls, hd.1, hd.2]
      have := ih toks0 rest hp
      simp only [layoutTokens] at this ⊢
      rw [List.cons_append, List.cons_append, List.cons_append, formatParts.FindAllString,
        if_pos hfa, List.filterMap_cons]
      simp only [hcls, Option.map_some', this, List.cons_append]
  | case3 a b c pre cls hcls hd =>
    intro toks rest h
    simp only [parseLayout, hcls, if_neg hd] at h
    cases h
  | case4 a b c pre hcls =>
    intro toks rest h
    simp only [parseLayout, hcls] at h
    cases h
  | case5 s h1 h2 =>
    intro toks rest h
    rw [parseLayout] at h
    · cases h
    · exact h1
    · exact h2

/-- A class letter followed by two characters that are not two digits and are
not class letters gives no token, and the scan goes on after them. -/
theorem layoutTokens_bad_field {a x y : Char} {post : List Char}
    {tq : List (CharClass × Nat)} (hxy : ¬(isDigit x = true ∧ isDigit y = true))
    (hx : classOfLetter x = none) (hy : classOfLetter y = none)
    (hpost : parseLayout post = some tq) :
    layoutTokens ([a, x, y] ++ post) = tq := by
  have h1 : ¬(((classOfLetter a).isSome && isDigit x && isDigit y) = true) := by
    simp only [Bool.and_eq_true]
    exact fun h => hxy ⟨h.1.2, h.2⟩
  have hskip : formatParts.FindAllString ([a, x, y] ++ post) =
      formatParts.FindAllString (x :: y :: post) := by
    simp only [List.cons_append, List.nil_append]
    rw [formatParts.FindAllString, if_neg h1]
  have hpt := findAll_of_parseLayout post tq hpost
  unfold layoutTokens at hpt ⊢
  rw [hskip]
  match post, hpost, hpt with
  | [], hpost, hpt =>
    simp only [parseLayout, Option.some.injEq] at hpost
    subst hpost
    rw [formatParts.FindAllString]
    · rfl
    · intro a b c rest h; cases h
  | [p], hpost, _ => simp [parseLayout] at hpost
  | p :: q :: post2, _, hpt =>
    have h2 : ¬(((classOfLetter x).isSome && isDigit y && isDigit p) = true) := by
      simp [hx]
    have h3 : ¬(((classOfLetter y).isSome && isDigit p && isDigit q) = true) := by
      simp [hy]
    rw [formatParts.FindAllString, if_neg h2, formatParts.FindAllString, if_neg h3]
    exact hpt

theorem exprSize_append (t1 t2 : List (CharClass × Nat)) :
    exprSize (t1 ++ t2) = exprSize t1 + exprSize t2 := by
  simp [exprSize]

/-- A descriptor has at most one token per three characters, and a token
counts at most 99. -/
theorem exprSize_layoutTokens_le (format : List Char) :
    exprSize (layoutTokens format) ≤ 33 * format.length := by
  induction format using formatParts.FindAllString.induct with
  | case1 a b c rest h ih =>
    obtain ⟨cls, hcls⟩ : ∃ cls, classOfLetter a = some cls := by
      simp only [Bool.and_eq_true] at h
      exact Option.isSome_iff_exists.mp h.1.1
    have hb : isDigit b = true := by simp only [Bool.and_eq_true] at h; exact h.1.2
    have hc : isDigit c = true := by simp only [Bool.and_eq_true] at h; exact h.2
    have h99 := two_digits_le hb hc
    simp only [layoutTokens, exprSize] at ih ⊢
    rw [formatParts.FindAllString, if_pos h, List.filterMap_cons]
    simp only [hcls, Option.map_some', List.map_cons, List.sum_cons, List.length_cons]
    omega
  | case2 a b c rest h ih =>
    simp only [layoutTokens] at ih ⊢
    rw [formatParts.FindAllString, if_neg h]
    simp only [List.length_cons] at ih ⊢
    omega
  | case3 s hs =>
    simp only [layoutTokens]
    rw [formatParts.FindAllString]
    · simp [exprSize]
    · exact hs

theorem tokenClasses_length (toks : List (CharClass × Nat)) :
    (tokenClasses toks).length = (toks.map Prod.snd).sum := by
  induction toks with
  | nil => rfl
  | cons t toks ih =>
    obtain ⟨cls, n⟩ := t
    simp only [tokenClasses, List.flatMap_cons, List.length_append, List.length_replicate,
      List.map_cons, List.sum_cons] at ih ⊢
    rw [ih]

theorem parseLayout_replicate (k : Nat) :
    parseLayout (List.replicate k "F99".toList).flatten =
      some (List.replicate k (CharClass.F, 99)) := by
  induction k with
  | zero => rfl
  | succ k ih =>
    have h : (List.replicate (k + 1) "F99".toList).flatten =
        'F' :: '9' :: '9' :: (List.replicate k "F99".toList).flatten := by
      simp [List.replicate_succ]
    rw [h, parseLayout]
    simp only [ih]
    rfl

theorem exprSize_replicate (k : Nat) :
    exprSize (List.replicate k (CharClass.F, 99)) = 99 * k := by
  induction k with
  | zero => rfl
  | succ k ih =>
    simp only [exprSize, List.replicate_succ, List.map_cons, List.sum_cons] at ih ⊢
    rw [ih]
    omega

/-! ## The claims -/

/-- C1: in every reachable registry state and for every input `x`, `ParseIBAN`
returns a result exactly when the normalized input meets the six conditions
of `Accepted` (character set, header, registered country, length, layout as a
whole, mod-97 value 1), and the `Code` of the result is the normalized
input. -/
theorem C1_ParseIBAN_ok_iff_accepted (up : Char → Char) (reg : Registry)
    (hreg : Reachable up reg) (x : List Char) :
    ((∃ r reg1, ParseIBAN up reg x = some (.ok r, reg1)) ↔ Accepted (normalize up x)) ∧
      ∀ r reg1, ParseIBAN up reg x = some (.ok r, reg1) → r.Code = normalize up x := by
  obtain ⟨reg2, hp, -⟩ := ParseIBAN_reachable hreg x
  constructor
  · constructor
    · rintro ⟨r, reg1, h⟩
      rw [hp] at h
      simp only [Option.some.injEq, Prod.mk.injEq] at h
      exact ((specParse_ok_iff _ r).mp h.1).1
    · intro h
      exact ⟨_, reg2, by rw [hp, (specParse_ok_iff _ _).mpr ⟨h, rfl⟩]⟩
  · intro r reg1 h
    rw [hp] at h
    simp only [Option.some.injEq, Prod.mk.injEq] at h
    rw [((specParse_ok_iff _ r).mp h.1).2]

/-- C1 at the Dutch IBAN `NL91 ABNA 0417 1643 00` in the initial registry
state: the normalized input meets the six conditions, so a result is returned,
and its `Code` is `NL91ABNA0417164300`; and at `NL30ABNA0517552264`, for which
an error is returned, so that the six conditions are not all met. -/
theorem C1_witness :
    (Accepted "NL91ABNA0417164300".toList ∧
      ∃ r reg1, ParseIBAN asciiImages countries "NL91 ABNA 0417 1643 00".toList =
          some (.ok r, reg1) ∧ r.Code = "NL91ABNA0417164300".toList) ∧
      ¬ Accepted "NL30ABNA0517552264".toList := by
  have h := C1_ParseIBAN_ok_iff_accepted asciiImages countries Reachable.init
    "NL91 ABNA 0417 1643 00".toList
  have hn : normalize asciiImages "NL91 ABNA 0417 1643 00".toList =
      "NL91ABNA0417164300".toList := by decide
  rw [hn] at h
  have hacc : Accepted "NL91ABNA0417164300".toList :=
    ⟨by decide, by decide, ⟨18, "U04F10".toList, none⟩, by decide, by decide, by decide,
      by decide⟩
  obtain ⟨r, reg1, hp⟩ := h.1.mpr hacc
  refine ⟨⟨hacc, r, reg1, hp, h.2 r reg1 hp⟩, ?_⟩
  have h2 := C1_ParseIBAN_ok_iff_accepted asciiImages countries Reachable.init
    "NL30ABNA0517552264".toList
  have hn2 : normalize asciiImages "NL30ABNA0517552264".toList =
      "NL30ABNA0517552264".toList := by decide
  rw [hn2] at h2
  intro hacc2
  obtain ⟨r2, reg2, hp2⟩ := h2.1.mpr hacc2
  have he : (ParseIBAN asciiImages countries "NL30ABNA0517552264".toList).map Prod.fst =
      some (.error .errCheckDigits) := by decide
  rw [hp2] at he
  cases he

/-- C2: in every reachable registry state and for every input, `ParseIBAN`
returns, and its outcome is the error of the first gate that fails on the
normalized input `s`, the gates taken in the order character set, header,
country lookup, length, BBAN layout, checksum: `errAlphaNumOnly` when `s` has a
character outside `[0-9A-Z]`; otherwise `errCountryCodeOrCheckDigits` when the
header is missing; otherwise `ErrUnsupportedCountryCode` when the prefix is not
a key of `countries` (whatever the length, the BBAN or the checksum); otherwise
the length error when the length differs from the entry's `Length`; otherwise
`errBBANMalformat` when the BBAN does not match the layout; otherwise
`errCheckDigits` when the mod-97 value is not 1. -/
theorem C2_first_failing_gate (up : Char → Char) (reg : Registry)
    (hreg : Reachable up reg) (x : List Char) :
    ∃ out reg1, ParseIBAN up reg x = some (out, reg1) ∧
      ((normalize up x).all isNumUpper = false → out = .error .errAlphaNumOnly) ∧
      ((normalize up x).all isNumUpper = true →
        (hasHeader (normalize up x) = false → out = .error .errCountryCodeOrCheckDigits) ∧
        (hasHeader (normalize up x) = true →
          (countries.get ((normalize up x).take 2) = none →
            out = .error .ErrUnsupportedCountryCode) ∧
          ∀ cs, countries.get ((normalize up x).take 2) = some cs →
            ((normalize up x).length ≠ cs.Length →
              out = .error (.errLength (normalize up x).length cs.Length
                ((normalize up x).take 2))) ∧
            ((normalize up x).length = cs.Length →
              (matchesLayout cs.Format ((normalize up x).drop 4) = false →
                out = .error .errBBANMalformat) ∧
              (matchesLayout cs.Format ((normalize up x).drop 4) = true →
                mod97Number (normalize up x) % 97 ≠ 1 → out = .error .errCheckDigits)))) := by
  obtain ⟨reg2, hp, -⟩ := ParseIBAN_reachable hreg x
  refine ⟨_, reg2, hp, ?_, ?_⟩
  · intro h1
    simp [specParse, h1]
  · intro h1
    refine ⟨?_, ?_⟩
    · intro h2
      simp [specParse, h1, h2]
    · intro h2
      refine ⟨?_, ?_⟩
      · intro h3
        simp [specParse, h1, h2, h3]
      · intro cs h3
        refine ⟨?_, ?_⟩
        · intro h4
          simp [specParse, h1, h2, h3, h4]
        · intro h4
          refine ⟨?_, ?_⟩
          · intro h5
            simp [specParse, h1, h2, h3, h4, h5]
          · intro h5 h6
            simp [specParse, h1, h2, h3, h4, h5, h6]

/-- C2 in the initial registry state, once for each gate: `NL91-ABNA` has a
character outside `[0-9A-Z]`, `1234567890` has no header, `ZZ` is not
registered, `NL91ABNA041716430` is one character short, `NL30ABNA05175522AB`
has letters where the Dutch layout wants digits, and `NL30ABNA0517552265` has
the mod-97 value 18. -/
theorem C2_witness :
    (ParseIBAN asciiImages countries "NL91-ABNA".toList).map Prod.fst =
        some (.error .errAlphaNumOnly) ∧
      (ParseIBAN asciiImages countries "1234567890".toList).map Prod.fst =
        some (.error .errCountryCodeOrCheckDigits) ∧
      (ParseIBAN asciiImages countries "ZZ30ABNA0517552264".toList).map Prod.fst =
        some (.error .ErrUnsupportedCountryCode) ∧
      (ParseIBAN asciiImages countries "NL91ABNA041716430".toList).map Prod.fst =
        some (.error (.errLength 17 18 "NL".toList)) ∧
      (ParseIBAN asciiImages countries "NL30ABNA05175522AB".toList).map Prod.fst =
        some (.error .errBBANMalformat) ∧
      (ParseIBAN asciiImages countries "NL30ABNA0517552265".toList).map Prod.fst =
        some (.error .errCheckDigits) := by
  have nl : countries.get "NL".toList = some ⟨18, "U04F10".toList, none⟩ := by decide
  refine ⟨?_, ?_, ?_, ?_, ?_, ?_⟩
  · obtain ⟨out, reg1, h, h1, -⟩ :=
      C2_first_failing_gate asciiImages countries Reachable.init "NL91-ABNA".toList
    rw [h, h1 (by decide)]; rfl
  · obtain ⟨out, reg1, h, -, h1⟩ :=
      C2_first_failing_gate asciiImages countries Reachable.init "1234567890".toList
    rw [h, (h1 (by decide)).1 (by decide)]; rfl
  · obtain ⟨out, reg1, h, -, h1⟩ :=
      C2_first_failing_gate asciiImages countries Reachable.init "ZZ30ABNA0517552264".toList
    rw [h, ((h1 (by decide)).2 (by decide)).1 (by decide)]; rfl
  · obtain ⟨out, reg1, h, -, h1⟩ :=
      C2_first_failing_gate asciiImages countries Reachable.init "NL91ABNA041716430".toList
    rw [h, (((h1 (by decide)).2 (by decide)).2 _ nl).1 (by decide)]; rfl
  · obtain ⟨out, reg1, h, -, h1⟩ :=
      C2_first_failing_gate asciiImages countries Reachable.init "NL30ABNA05175522AB".toList
    rw [h, ((((h1 (by decide)).2 (by decide)).2 _ nl).2 (by decide)).1 (by decide)]; rfl
  · obtain ⟨out, reg1, h, -, h1⟩ :=
      C2_first_failing_gate asciiImages countries Reachable.init "NL30ABNA0517552265".toList
    rw [h, ((((h1 (by decide)).2 (by decide)).2 _ nl).2 (by decide)).2 (by decide)
      (by decide)]; rfl

/-- C3, as the code has it: in every reachable registry state
`ParseIBAN("NL30 ABNA0517 552264")` fails with `errCheckDigits`.  The input
normalizes to `NL30ABNA0517552264`, which passes the character-set, header,
country, length and BBAN-layout gates, and its mod-97 value is 88, not 1. -/
theorem C3_NL30_rejected (up : Char → Char) (reg : Registry) (hreg : Reachable up reg) :
    normalize up "NL30 ABNA0517 552264".toList = "NL30ABNA0517552264".toList ∧
      mod97Number "NL30ABNA0517552264".toList % 97 = 88 ∧
      ("NL30ABNA0517552264".toList.all isNumUpper = true ∧
        hasHeader "NL30ABNA0517552264".toList = true ∧
        ∃ cs, countries.get "NL".toList = some cs ∧ cs.Length = 18 ∧
          matchesLayout cs.Format "ABNA0517552264".toList = true) ∧
      ∃ reg1, ParseIBAN up reg "NL30 ABNA0517 552264".toList =
        some (.error .errCheckDigits, reg1) := by
  have hn : normalize up "NL30 ABNA0517 552264".toList = "NL30ABNA0517552264".toList := rfl
  refine ⟨hn, by decide, ⟨by decide, by decide,
    ⟨⟨18, "U04F10".toList, none⟩, by decide, by decide, by decide⟩⟩, ?_⟩
  obtain ⟨reg1, hp, -⟩ := ParseIBAN_reachable hreg "NL30 ABNA0517 552264".toList
  refine ⟨reg1, ?_⟩
  rw [hp, hn]
  have : specParse "NL30ABNA0517552264".toList = .error .errCheckDigits := by decide
  rw [this]

/-- C3 as stated fails: in the initial registry state
`ParseIBAN("NL30 ABNA0517 552264")` returns the error `errCheckDigits`, not a
result. -/
theorem C3_counterexample :
    (ParseIBAN asciiImages countries "NL30 ABNA0517 552264".toList).map Prod.fst =
      some (.error .errCheckDigits) := by
  decide

/-- C3 (amended) in the initial registry state. -/
theorem C3_witness :
    ∃ reg1, ParseIBAN asciiImages countries "NL30 ABNA0517 552264".toList =
      some (.error .errCheckDigits, reg1) :=
  (C3_NL30_rejected asciiImages countries Reachable.init).2.2.2

/-- C4: for every input on which `ParseIBAN` succeeds, `Code` is the
normalized input, `CountryCode` is `Code[0:2]`, `CheckDigits` is `Code[2:4]`
and `BBAN` is `Code[4:]` (all three slices in range), so that `Code` is
`CountryCode ++ CheckDigits ++ BBAN`. -/
theorem C4_fields_of_result (up : Char → Char) (reg reg1 : Registry)
    (hreg : Reachable up reg) (x : List Char) (r : IBAN)
    (h : ParseIBAN up reg x = some (.ok r, reg1)) :
    r.Code = normalize up x ∧ slice r.Code 0 2 = some r.CountryCode ∧
      slice r.Code 2 4 = some r.CheckDigits ∧ sliceFrom r.Code 4 = some r.BBAN ∧
      r.Code = r.CountryCode ++ r.CheckDigits ++ r.BBAN := by
  obtain ⟨reg2, hp, -⟩ := ParseIBAN_reachable hreg x
  rw [hp] at h
  simp only [Option.some.injEq, Prod.mk.injEq] at h
  obtain ⟨hacc, hr⟩ := (specParse_ok_iff _ r).mp h.1
  have h4 := hacc.four_le
  generalize normalize up x = s at hr h4
  subst hr
  refine ⟨rfl, ?_, ?_, ?_, ?_⟩
  · simp only [slice]
    rw [if_pos ⟨Nat.zero_le _, by omega⟩]
    rfl
  · simp only [slice]
    rw [if_pos ⟨by omega, h4⟩, List.drop_take]
  · simp only [sliceFrom]
    rw [if_pos h4]
  · show s = s.take 2 ++ (s.drop 2).take 2 ++ s.drop 4
    have h1 : s.drop 4 = (s.drop 2).drop 2 := by rw [List.drop_drop]
    rw [h1, List.append_assoc, List.take_append_drop, List.take_append_drop]

/-- C4 at `nl91 abna 0417 1643 00` in the initial registry state. -/
theorem C4_witness :
    ∃ r reg1, ParseIBAN asciiImages countries "nl91 abna 0417 1643 00".toList =
        some (.ok r, reg1) ∧
      r.Code = "NL91ABNA0417164300".toList ∧ r.CountryCode = "NL".toList ∧
      r.CheckDigits = "91".toList ∧ r.BBAN = "ABNA0417164300".toList ∧
      r.Code = r.CountryCode ++ r.CheckDigits ++ r.BBAN :=
  ⟨_, _, rfl, rfl, rfl, rfl, rfl,
    (C4_fields_of_result asciiImages countries _ Reachable.init
      "nl91 abna 0417 1643 00".toList _ rfl).2.2.2.2⟩

/-- C5: for every string `s` of at least four characters of `[0-9A-Z]`,
`validateCheckDigits(s)` returns `nil` exactly when `N mod 97 = 1`, where `N`
is the unbounded number whose decimal representation is `s[4:] ++ s[0:4]` with
every letter replaced by its two-digit value; otherwise it returns
`errCheckDigits`. -/
theorem C5_validateCheckDigits_mod97 (s : List Char) (hlen : 4 ≤ s.length)
    (hs : s.all isNumUpper = true) :
    (validateCheckDigits s = some none ↔ mod97Number s % 97 = 1) ∧
      (mod97Number s % 97 ≠ 1 → validateCheckDigits s = some (some .errCheckDigits)) := by
  rw [validateCheckDigits_eq hlen hs]
  by_cases hm : mod97Number s % 97 = 1
  · simp [hm]
  · simp [hm]

/-- C5 at `GB82WEST12345698765432`, whose number `N` is
`3214282912345698765432161182`. -/
theorem C5_witness :
    mod97Number "GB82WEST12345698765432".toList = 3214282912345698765432161182 ∧
      validateCheckDigits "GB82WEST12345698765432".toList = some none :=
  ⟨by decide,
    (C5_validateCheckDigits_mod97 "GB82WEST12345698765432".toList (by decide) (by decide)).1.mpr
      (by decide)⟩

/-- C6: for every input whose normalized form `s` has only characters of
`[0-9A-Z]`, has the header and a registered country prefix with entry `cs`, if
`len(s)` is not `cs.Length` (shorter or longer) then `ParseIBAN` fails with the
length error carrying the actual length, the expected length and the country
code, which is not `errBBANMalformat`. -/
theorem C6_length_mismatch (up : Char → Char) (reg : Registry) (hreg : Reachable up reg)
    (x : List Char) (cs : countrySettings)
    (h1 : (normalize up x).all isNumUpper = true) (h2 : hasHeader (normalize up x) = true)
    (h3 : countries.get ((normalize up x).take 2) = some cs)
    (h4 : (normalize up x).length < cs.Length ∨ cs.Length < (normalize up x).length) :
    (∃ reg1, ParseIBAN up reg x =
        some (.error (.errLength (normalize up x).length cs.Length ((normalize up x).take 2)),
          reg1)) ∧
      ∀ reg1, ParseIBAN up reg x ≠ some (.error .errBBANMalformat, reg1) := by
  obtain ⟨reg2, hp, -⟩ := ParseIBAN_reachable hreg x
  have hne : (normalize up x).length ≠ cs.Length := by omega
  have hsp : specParse (normalize up x) =
      .error (.errLength (normalize up x).length cs.Length ((normalize up x).take 2)) := by
    simp [specParse, h1, h2, h3, hne]
  rw [hp, hsp]
  refine ⟨⟨reg2, rfl⟩, ?_⟩
  intro reg1 h
  simp only [Option.some.injEq, Prod.mk.injEq] at h
  exact absurd h.1 (by simp)

/-- C6 at `NL91ABNA041716430`, one character short of the Dutch length 18, in
the initial registry state. -/
theorem C6_witness :
    ∃ reg1, ParseIBAN asciiImages countries "NL91ABNA041716430".toList =
      some (.error (.errLength 17 18 "NL".toList), reg1) :=
  (C6_length_mismatch asciiImages countries Reachable.init "NL91ABNA041716430".toList
    ⟨18, "U04F10".toList, none⟩ (by decide) (by decide) (by decide) (by decide)).1

/-- C7: for every input on which `ParseIBAN` succeeds, removing the space
characters from `PrintCode` gives exactly `Code`. -/
theorem C7_PrintCode_without_spaces (up : Char → Char) (reg reg1 : Registry)
    (hreg : Reachable up reg) (x : List Char) (r : IBAN)
    (h : ParseIBAN up reg x = some (.ok r, reg1)) :
    r.PrintCode.filter (fun c => decide (c ≠ ' ')) = r.Code := by
  obtain ⟨hacc, hr⟩ := result_of_ok hreg h
  subst hr
  apply filter_intercalate_codeGroups _ (by simp) _ _ (Nat.le_refl _)
  intro c hc
  simpa using ne_space_of_isNumUpper (List.all_eq_true.mp hacc.1 c hc)

/-- C7 at `GB82WEST12345698765432` in the initial registry state. -/
theorem C7_witness :
    ∃ r reg1, ParseIBAN asciiImages countries "GB82WEST12345698765432".toList =
        some (.ok r, reg1) ∧ r.PrintCode = "GB82 WEST 1234 5698 7654 32".toList ∧
      r.PrintCode.filter (fun c => decide (c ≠ ' ')) = r.Code :=
  ⟨_, _, rfl, rfl,
    C7_PrintCode_without_spaces asciiImages countries _ Reachable.init
      "GB82WEST12345698765432".toList _ rfl⟩

/-- C8: for every input on which `ParseIBAN` succeeds, with `N = len(Code)`,
`PrintCode` is `ceil(N/4)` groups joined by one space each, none of which
contains a space; the group of index `i` is `Code[4i : min(4i+4, N)]`, every
group but the last has four characters and the last has between one and four;
`PrintCode` neither starts nor ends with a space and its length is
`N + ceil(N/4) - 1`. -/
theorem C8_PrintCode_groups (up : Char → Char) (reg reg1 : Registry)
    (hreg : Reachable up reg) (x : List Char) (r : IBAN)
    (h : ParseIBAN up reg x = some (.ok r, reg1)) :
    ∃ groups : List (List Char),
      r.PrintCode = List.intercalate [' '] groups ∧
      groups.length = (r.Code.length + 3) / 4 ∧
      (∀ g ∈ groups, ' ' ∉ g) ∧
      (∀ (i : Nat) (hi : i < groups.length),
        groups[i] = (r.Code.take (min (4 * i + 4) r.Code.length)).drop (4 * i) ∧
        (i + 1 < groups.length → groups[i].length = 4) ∧
        (i + 1 = groups.length → 1 ≤ groups[i].length ∧ groups[i].length ≤ 4)) ∧
      r.PrintCode.head? ≠ some ' ' ∧ r.PrintCode.getLast? ≠ some ' ' ∧
      r.PrintCode.length = r.Code.length + (r.Code.length + 3) / 4 - 1 := by
  obtain ⟨hacc, hr⟩ := result_of_ok hreg h
  subst hr
  have h4 := hacc.four_le
  have hsp : ∀ c ∈ normalize up x, c ≠ ' ' := fun c hc =>
    ne_space_of_isNumUpper (List.all_eq_true.mp hacc.1 c hc)
  have hne : normalize up x ≠ [] := by
    intro h0; rw [h0] at h4; simp at h4
  generalize normalize up x = s at h4 hsp hne
  refine ⟨codeGroups s, rfl, codeGroups_length s, ?_, ?_, ?_, ?_, ?_⟩
  · intro g hg hc
    exact hsp _ (mem_of_mem_codeGroups hg hc) rfl
  · intro i hi
    have hk := codeGroups_length s
    refine ⟨codeGroups_getElem s i hi, ?_, ?_⟩
    · intro h1
      rw [codeGroups_getElem_length s i hi]
      omega
    · intro h1
      rw [codeGroups_getElem_length s i hi]
      omega
  · show (List.intercalate [' '] (codeGroups s)).head? ≠ some ' '
    rw [head?_intercalate_codeGroups]
    intro h0
    exact hsp _ (List.mem_of_mem_head? h0) rfl
  · show (List.intercalate [' '] (codeGroups s)).getLast? ≠ some ' '
    rw [getLast?_intercalate_codeGroups _ s (Nat.le_refl _)]
    intro h0
    exact hsp _ (List.mem_of_getLast?_eq_some h0) rfl
  · exact length_intercalate_codeGroups _ s (Nat.le_refl _) hne

/-- C8 at `NO9386011117947` (15 characters, so four groups, the last of
three) in the initial registry state. -/
theorem C8_witness :
    ∃ r reg1, ParseIBAN asciiImages countries "NO9386011117947".toList =
        some (.ok r, reg1) ∧ r.PrintCode = "NO93 8601 1117 947".toList ∧
      ∃ groups : List (List Char),
        r.PrintCode = List.intercalate [' '] groups ∧ groups.length = 4 ∧
        r.PrintCode.length = 18 := by
  obtain ⟨groups, h1, h2, -, -, -, -, h3⟩ :=
    C8_PrintCode_groups asciiImages countries _ Reachable.init
      "NO9386011117947".toList _ rfl
  exact ⟨_, _, rfl, rfl, groups, h1, h2, h3⟩

/-- C9: for every input on which `ParseIBAN` succeeds with result `r`, a call
of `ParseIBAN` on `r.PrintCode`, made in any reachable registry state,
succeeds and returns the same five fields, and so does a call on `r.Code`. -/
theorem C9_reparse_PrintCode (up : Char → Char) (reg reg1 reg2 : Registry)
    (hreg : Reachable up reg) (hreg2 : Reachable up reg2) (x : List Char) (r : IBAN)
    (h : ParseIBAN up reg x = some (.ok r, reg1)) :
    (∃ reg3, ParseIBAN up reg2 r.PrintCode = some (.ok r, reg3)) ∧
      ∃ reg3, ParseIBAN up reg2 r.Code = some (.ok r, reg3) := by
  obtain ⟨hacc, hr⟩ := result_of_ok hreg h
  have hsp : specParse (normalize up x) = .ok r := (specParse_ok_iff _ r).mpr ⟨hacc, hr⟩
  have hP : r.PrintCode = List.intercalate [' '] (codeGroups (normalize up x)) := by rw [hr]
  have hC : r.Code = normalize up x := by rw [hr]
  constructor
  · obtain ⟨reg3, hp, -⟩ := ParseIBAN_reachable hreg2 r.PrintCode
    refine ⟨reg3, ?_⟩
    rw [hp, hP, normalize_intercalate_codeGroups up hacc.1, hsp]
  · obtain ⟨reg3, hp, -⟩ := ParseIBAN_reachable hreg2 r.Code
    refine ⟨reg3, ?_⟩
    rw [hp, hC, normalize_of_all_isNumUpper up hacc.1, hsp]

/-- C9 at `nl91abna0417164300`: the result is parsed again from its
`PrintCode` in the registry state the first call left. -/
theorem C9_witness :
    ∃ r reg1, ParseIBAN asciiImages countries "nl91abna0417164300".toList =
        some (.ok r, reg1) ∧ r.PrintCode = "NL91 ABNA 0417 1643 00".toList ∧
      ∃ reg3, ParseIBAN asciiImages reg1 "NL91 ABNA 0417 1643 00".toList = some (.ok r, reg3) := by
  refine ⟨_, _, rfl, rfl, ?_⟩
  exact (C9_reparse_PrintCode asciiImages countries _ _ Reachable.init
    (@Reachable.step asciiImages countries _ "nl91abna0417164300".toList _ Reachable.init rfl)
    "nl91abna0417164300".toList _ rfl).1

/-- C10: `ParseIBAN` depends on its input only through the normal form (white
space of the class `\s` deleted, letters upper-cased): two inputs with the same
normal form get the same result or the same error, in whatever reachable
registry states the two calls are made.  Under the two facts `UpperTable` of
Go's Unicode table, normalization is idempotent and `ParseIBAN` returns on
`normalize(x)` what it returns on `x`. -/
theorem C10_insensitive_to_space_and_case (up : Char → Char) (reg reg2 : Registry)
    (hreg : Reachable up reg) (hreg2 : Reachable up reg2) (x y : List Char) :
    (normalize up x = normalize up y →
        (ParseIBAN up reg x).map Prod.fst = (ParseIBAN up reg2 y).map Prod.fst) ∧
      (UpperTable up →
        normalize up (normalize up x) = normalize up x ∧
        (ParseIBAN up reg2 (normalize up x)).map Prod.fst =
          (ParseIBAN up reg x).map Prod.fst) := by
  obtain ⟨r1, hp1, -⟩ := ParseIBAN_reachable hreg x
  obtain ⟨r2, hp2, -⟩ := ParseIBAN_reachable hreg2 y
  obtain ⟨r3, hp3, -⟩ := ParseIBAN_reachable hreg2 (normalize up x)
  refine ⟨?_, ?_⟩
  · intro h
    rw [hp1, hp2, h]; rfl
  · intro hup
    refine ⟨normalize_idem hup x, ?_⟩
    rw [hp1, hp3, normalize_idem hup x]; rfl

/-- C10 at a lower-case input with spaces, a tab and a newline against the
plain code, both calls made in the initial registry state. -/
theorem C10_witness :
    normalize asciiImages "nl91 abna\t0417\n1643 00".toList = "NL91ABNA0417164300".toList ∧
      normalize asciiImages (normalize asciiImages "nl91 abna\t0417\n1643 00".toList) =
        normalize asciiImages "nl91 abna\t0417\n1643 00".toList ∧
      (ParseIBAN asciiImages countries "nl91 abna\t0417\n1643 00".toList).map Prod.fst =
        (ParseIBAN asciiImages countries "NL91ABNA0417164300".toList).map Prod.fst :=
  have h := C10_insensitive_to_space_and_case asciiImages countries countries Reachable.init
    Reachable.init "nl91 abna\t0417\n1643 00".toList "NL91ABNA0417164300".toList
  ⟨rfl, (h.2 upperTable_asciiImages).1, h.1 rfl⟩

/-- C11: for every entry of the `countries` table, `Format` is entirely a
concatenation of tokens (one class letter of `ABCFLUW` and a two-digit count),
`Length` is 4 plus the sum of the tokens' counts, and these tokens are the
expression `compileFormat` builds from `Format`. -/
theorem C11_registry_invariant (k : List Char) (cs : countrySettings)
    (h : (k, cs) ∈ countries) :
    ∃ toks, parseLayout cs.Format = some toks ∧
      cs.Length = 4 + (toks.map Prod.snd).sum ∧ compileFormat cs.Format = .ok toks := by
  have hall := List.all_eq_true.mp countries_layouts _ h
  simp only at hall
  cases hp : parseLayout cs.Format with
  | none => rw [hp] at hall; cases hall
  | some toks =>
    rw [hp] at hall
    simp only [Bool.and_eq_true, decide_eq_true_eq] at hall
    exact ⟨toks, rfl, hall.1, hall.2⟩

/-- C11 at the Dutch entry: `U04F10` is the tokens `U04` and `F10`, and
`18 = 4 + 4 + 10`. -/
theorem C11_witness :
    ∃ toks, parseLayout "U04F10".toList = some toks ∧
      18 = 4 + (toks.map Prod.snd).sum ∧ compileFormat "U04F10".toList = .ok toks :=
  C11_registry_invariant "NL".toList ⟨18, "U04F10".toList, none⟩ (by decide)

/-- C12, as the code has it: for every layout descriptor made of tokens whose
counts (a count of zero taken as one) sum to at most 3355443, the size
`regexp.Compile` accepts, `compileFormat` returns a matcher, and the matcher
accepts a string exactly when SOME contiguous part of it is, token by token in
order, `count` characters of each token's class; characters before and after
that part are accepted.  On a string with as many characters as the counts sum
to, this is a match of the entire string.  `validateBasicBankAccountNumber` on
an entry with that `Format` and nothing cached returns `nil` in exactly these
cases and `errBBANMalformat` otherwise.  When `compileFormat` returns an error
there is no matcher, and `validateBasicBankAccountNumber` returns that error
wrapped. -/
theorem C12_matcher_searches (format : List Char) (toks : List (CharClass × Nat))
    (s : List Char) (htok : parseLayout format = some toks) :
    (exprSize toks ≤ 3355443 →
      ∃ re, compileFormat format = .ok re ∧
        (Regexp.MatchString re s = true ↔
          ∃ l m r, s = l ++ (m ++ r) ∧ matchesClasses (tokenClasses toks) m = true) ∧
        (s.length = (toks.map Prod.snd).sum →
          (Regexp.MatchString re s = true ↔ matchesClasses (tokenClasses toks) s = true)) ∧
        ∀ n, ((countrySettings.mk n format none).validateBasicBankAccountNumber s).1 =
          if Regexp.MatchString re s = true then none else some .errBBANMalformat) ∧
      ∀ e, compileFormat format = .error e →
        ∀ n, ((countrySettings.mk n format none).validateBasicBankAccountNumber s).1 =
          some (.errFailedToValidate e) := by
  have hlt := findAll_of_parseLayout format toks htok
  refine ⟨?_, ?_⟩
  · intro hsize
    have hc : compileFormat format = .ok toks := by
      rw [← hlt]
      exact compileFormat_of_le (by rw [hlt]; exact hsize)
    refine ⟨toks, hc, ?_, ?_, ?_⟩
    · rw [MatchString_iff]; rfl
    · intro hlen
      have hl : s.length = (rePositions toks).length := by
        rw [hlen]; exact (tokenClasses_length toks).symm
      rw [MatchString_of_length hl]
      rfl
    · intro n
      exact validate_fst s hc (fun r h => by cases h)
  · intro e he n
    simp only [countrySettings.validateBasicBankAccountNumber, he]

/-- C12 as stated fails: the descriptor `F02` is the one token `F02`, and the
matcher compiled from it accepts `A123B`, which is not two digits; so does
`validateBasicBankAccountNumber`. -/
theorem C12_counterexample :
    parseLayout "F02".toList = some [(.F, 2)] ∧
      compileFormat "F02".toList = .ok [(.F, 2)] ∧
      Regexp.MatchString [(.F, 2)] "A123B".toList = true ∧
      matchesClasses (tokenClasses [(.F, 2)]) "A123B".toList = false ∧
      ((countrySettings.mk 6 "F02".toList none).validateBasicBankAccountNumber
        "A123B".toList).1 = none := by
  decide

/-- C12 (amended) at the layout `U04F10` and the string `ABNA0417164300`,
which has the fourteen characters of the layout. -/
theorem C12_witness :
    Regexp.MatchString [(.U, 4), (.F, 10)] "ABNA0417164300".toList = true ↔
      matchesClasses (tokenClasses [(.U, 4), (.F, 10)]) "ABNA0417164300".toList = true := by
  obtain ⟨re, h1, -, h2, -⟩ := (C12_matcher_searches "U04F10".toList [(.U, 4), (.F, 10)]
    "ABNA0417164300".toList (by decide)).1 (by decide)
  have h3 : compileFormat "U04F10".toList = .ok [(.U, 4), (.F, 10)] := by decide
  rw [h3] at h1
  cases h1
  exact h2 (by decide)

/-- C13: for every entry `cs` of a reachable registry state and every string
`b` with `len(b) = cs.Length - 4`, `cs.validateBasicBankAccountNumber(b)`
returns `nil` exactly when `b` as a whole matches the layout position by
position, and `errBBANMalformat` otherwise; a part of `b` that matches the
layout is all of `b`. -/
theorem C13_validateBBAN_whole_match (up : Char → Char) (reg : Registry)
    (hreg : Reachable up reg) (k : List Char) (cs : countrySettings)
    (hk : reg.get k = some cs) (b : List Char) (hlen : b.length = cs.Length - 4) :
    ((cs.validateBasicBankAccountNumber b).1 = none ↔ matchesLayout cs.Format b = true) ∧
      (matchesLayout cs.Format b = false →
        (cs.validateBasicBankAccountNumber b).1 = some .errBBANMalformat) ∧
      ∀ l m r, b = l ++ (m ++ r) → matchesLayout cs.Format m = true → l = [] ∧ r = [] := by
  rcases get_of_forall2 k (cacheOK_of_reachable hreg) with ⟨-, hn⟩ | ⟨cs0, cs1, h0, h1, hc⟩
  · rw [hn] at hk; cases hk
  rw [h1] at hk
  cases hk
  obtain ⟨re, hre, hpos, hL⟩ := countries_get_ok h0
  obtain ⟨hcL, hcF, hcR⟩ := hc
  have hlb : b.length = (layoutPositions cs.Format).length := by
    rw [hcF]; omega
  have hre' : compileFormat cs.Format = .ok re := by rw [hcF]; exact hre
  have hfst := validate_fst b hre' (fun r h => by rw [hcF]; exact hcR r h)
  rw [MatchString_of_length (by rw [hpos, ← hcF]; exact hlb), hpos, ← hcF] at hfst
  have hm : matchesClasses (layoutPositions cs.Format) b = matchesLayout cs.Format b := rfl
  rw [hm] at hfst
  refine ⟨?_, ?_, ?_⟩
  · rw [hfst]
    cases matchesLayout cs.Format b <;> simp
  · intro h
    rw [hfst, h]; rfl
  · intro l m r hb hmm
    have h2 := matchesLayout_length hmm
    have h3 := congrArg List.length hb
    simp only [List.length_append] at h3
    exact ⟨List.length_eq_zero.mp (by omega), List.length_eq_zero.mp (by omega)⟩

/-- C13 at the Dutch entry after a first call compiled its layout: the BBAN
`ABNA05175522AB` has the right length and is rejected. -/
theorem C13_witness :
    ((countrySettings.mk 18 "U04F10".toList (some [(.U, 4), (.F, 10)])
      ).validateBasicBankAccountNumber "ABNA05175522AB".toList).1 =
        some .errBBANMalformat := by
  have hstep : ∃ reg1, ParseIBAN asciiImages countries "NL91ABNA0417164300".toList =
      some (.ok ⟨"NL91ABNA0417164300".toList, "NL91 ABNA 0417 1643 00".toList, "NL".toList,
        "91".toList, "ABNA0417164300".toList⟩, reg1) ∧
      reg1.get "NL".toList = some ⟨18, "U04F10".toList, some [(.U, 4), (.F, 10)]⟩ :=
    ⟨_, rfl, by decide⟩
  obtain ⟨reg1, hp, hg⟩ := hstep
  exact (C13_validateBBAN_whole_match asciiImages reg1 (Reachable.step Reachable.init hp)
    "NL".toList _ hg "ABNA05175522AB".toList (by decide)).2.1 (by decide)

/-- C14: for every string `s` of at least four characters of `[0-9A-Z]`, with
`mods` the digit string the loop of `validateCheckDigits` builds from the
rearranged `s`: `mods` parses to an unbounded integer `bigVal` (the number `N`),
the streaming fold `acc := (acc*10 + digit) mod 97` over the digits of `mods`
gives `bigVal mod 97`, and `validateCheckDigits(s)` is `nil` exactly when the
streaming result is 1. -/
theorem C14_streaming_mod97 (s mods : List Char) (hlen : 4 ≤ s.length)
    (hs : s.all isNumUpper = true)
    (hmods : mods = (s.drop 4 ++ s.take 4).foldl (fun mods c => mods ++ expandRune c) []) :
    ∃ bigVal : Int, SetString mods = some bigVal ∧ bigVal = (mod97Number s : Nat) ∧
      bigVal % 97 = ((streamMod97 (mods.map fun c => c.toNat - 48) : Nat) : Int) ∧
      (validateCheckDigits s = some none ↔
        streamMod97 (mods.map fun c => c.toNat - 48) = 1) := by
  obtain ⟨h1, h2⟩ := mods_eq hlen hs
  subst hmods
  have hst : streamMod97 (((s.drop 4 ++ s.take 4).foldl
      (fun mods c => mods ++ expandRune c) []).map fun c => c.toNat - 48) =
      mod97Number s % 97 := by
    rw [h1, streamMod97_eq]; rfl
  refine ⟨_, h2, rfl, ?_, ?_⟩
  · rw [hst]; norm_cast
  · rw [hst, validateCheckDigits_eq hlen hs]
    by_cases hm : mod97Number s % 97 = 1
    · simp [hm]
    · simp [hm]

/-- C14 at `GB82WEST12345698765432`: the 28-digit number does not fit 64 bits
and the streaming fold ends in 1. -/
theorem C14_witness :
    streamMod97 ("3214282912345698765432161182".toList.map fun c => c.toNat - 48) = 1 ∧
      validateCheckDigits "GB82WEST12345698765432".toList = some none ∧
      2 ^ 64 < mod97Number "GB82WEST12345698765432".toList := by
  obtain ⟨bigVal, -, -, -, h⟩ := C14_streaming_mod97 "GB82WEST12345698765432".toList
    "3214282912345698765432161182".toList (by decide) (by decide) (by decide)
  exact ⟨by decide, h.mpr (by decide), by decide⟩

/-- C15: `ParseIBAN` never returns `errFailed`, in any reachable registry state
and for any input; and on every string of at least four characters of
`[0-9A-Z]`, which is what reaches it, `validateCheckDigits` does not return
`errFailed` because the digit string it builds parses as an integer. -/
theorem C15_errFailed_unreachable (up : Char → Char) (reg reg1 : Registry)
    (hreg : Reachable up reg) (x : List Char) (out : Except Error IBAN)
    (h : ParseIBAN up reg x = some (out, reg1)) :
    out ≠ .error .errFailed ∧
      ∀ s : List Char, 4 ≤ s.length → s.all isNumUpper = true →
        validateCheckDigits s ≠ some (some .errFailed) ∧
        (SetString ((s.drop 4 ++ s.take 4).foldl (fun mods c => mods ++ expandRune c) [])
          ).isSome = true := by
  obtain ⟨reg2, hp, -⟩ := ParseIBAN_reachable hreg x
  rw [hp] at h
  simp only [Option.some.injEq, Prod.mk.injEq] at h
  refine ⟨?_, ?_⟩
  · rw [← h.1]; exact specParse_ne_errFailed _
  · intro s hlen hs
    refine ⟨?_, ?_⟩
    · rw [validateCheckDigits_eq hlen hs]
      split <;> simp
    · rw [(mods_eq hlen hs).2]; rfl

/-- C15 at `NL30ABNA0517552265` in the initial registry state: the checksum
gate is reached and the error is `errCheckDigits`, not `errFailed`. -/
theorem C15_witness :
    ∃ reg1, ParseIBAN asciiImages countries "NL30ABNA0517552265".toList =
        some (.error .errCheckDigits, reg1) ∧
      (.error .errCheckDigits : Except Error IBAN) ≠ .error .errFailed :=
  ⟨_, rfl, (C15_errFailed_unreachable asciiImages countries _ Reachable.init
    "NL30ABNA0517552265".toList _ rfl).1⟩

/-- C16, as the code has it: `compileFormat` does not check count fields.  In
a descriptor otherwise made of tokens (the parts `pre` and `post`) and within
the size `regexp.Compile` accepts, a token with count `00` compiles to an item
repeated zero times, and a class letter followed by two characters that are
neither two decimal digits nor class letters gives no item and no error.  An
error of `compileFormat` is always the one of `regexp.Compile` and needs a
descriptor of more than 101680 characters; the descriptor of 33894 tokens
`F99` gets it. -/
theorem C16_count_fields_not_checked (pre post : List Char)
    (tp tq : List (CharClass × Nat)) (hpre : parseLayout pre = some tp)
    (hpost : parseLayout post = some tq) :
    (∀ a cls, classOfLetter a = some cls → exprSize (tp ++ (cls, 0) :: tq) ≤ 3355443 →
        compileFormat (pre ++ [a, '0', '0'] ++ post) = .ok (tp ++ (cls, 0) :: tq)) ∧
      (∀ a x y, (classOfLetter a).isSome = true → ¬(isDigit x = true ∧ isDigit y = true) →
        classOfLetter x = none → classOfLetter y = none → exprSize (tp ++ tq) ≤ 3355443 →
        compileFormat (pre ++ [a, x, y] ++ post) = .ok (tp ++ tq)) ∧
      (∀ format e, compileFormat format = .error e →
        e = .errRegexp ∧ 101680 < format.length) ∧
      compileFormat (List.replicate 33894 "F99".toList).flatten = .error .errRegexp := by
  refine ⟨?_, ?_, ?_, ?_⟩
  · intro a cls hcls hsize
    have h1 : parseLayout ([a, '0', '0'] ++ post) = some ((cls, 0) :: tq) := by
      have hd : (isDigit '0' && isDigit '0') = true := by decide
      show parseLayout (a :: '0' :: '0' :: post) = some ((cls, 0) :: tq)
      simp only [parseLayout, hcls, if_pos hd, hpost, Option.map_some']
      rfl
    have h2 : layoutTokens (pre ++ [a, '0', '0'] ++ post) = tp ++ (cls, 0) :: tq := by
      rw [List.append_assoc, layoutTokens_append pre tp _ hpre,
        findAll_of_parseLayout _ _ h1]
    rw [← h2]
    exact compileFormat_of_le (by rw [h2]; exact hsize)
  · intro a x y _ hxy hx hy hsize
    have h2 : layoutTokens (pre ++ [a, x, y] ++ post) = tp ++ tq := by
      rw [List.append_assoc, layoutTokens_append pre tp _ hpre,
        layoutTokens_bad_field hxy hx hy hpost]
    rw [← h2]
    exact compileFormat_of_le (by rw [h2]; exact hsize)
  · intro format e he
    rw [compileFormat_eq] at he
    have hle := exprSize_layoutTokens_le format
    split at he
    · next hgt =>
      simp only [maxSize] at hgt
      cases he
      exact ⟨rfl, by omega⟩
    · cases he
  · have hl := findAll_of_parseLayout _ _ (parseLayout_replicate 33894)
    rw [compileFormat_eq, hl, exprSize_replicate, if_pos (by decide)]

/-- C16 as stated fails: the descriptor `F00`, whose count is not positive,
compiles to the item `[0-9]` repeated zero times, and the descriptor `F1X`,
whose count field is not two digits, compiles to the empty expression. -/
theorem C16_counterexample :
    compileFormat "F00".toList = .ok [(.F, 0)] ∧ compileFormat "F1X".toList = .ok [] := by
  decide

/-- C16 (amended) at the descriptors `U04F00F10`, with a count of `00` between
two tokens, and `U04F1XF10`, with a count field that is not two digits. -/
theorem C16_witness :
    compileFormat "U04F00F10".toList = .ok [(.U, 4), (.F, 0), (.F, 10)] ∧
      compileFormat "U04F1XF10".toList = .ok [(.U, 4), (.F, 10)] :=
  have h := C16_count_fields_not_checked "U04".toList "F10".toList [(.U, 4)] [(.F, 10)]
    (by decide) (by decide)
  ⟨h.1 'F' .F (by decide) (by decide),
    h.2.1 'F' '1' 'X' (by decide) (by decide) (by decide) (by decide) (by decide)⟩

/-- C17: in every registry state reachable from the initial one (where every
`re` is `nil`) by calls of `ParseIBAN`, the table has the same keys in the same
order, every entry has its initial `Length` and `Format`, its `re` is `nil` or
the expression `compileFormat` returns for its `Format`, and `ParseIBAN`
returns on every input the result or error it returns in the initial state. -/
theorem C17_cache_not_observable (up : Char → Char) (reg : Registry)
    (hreg : Reachable up reg) :
    (∀ e ∈ countries, e.2.re = none) ∧
      List.Forall₂ (fun e0 e => e.1 = e0.1 ∧ e.2.Length = e0.2.Length ∧
        e.2.Format = e0.2.Format ∧
        (e.2.re = none ∨ ∃ re, e.2.re = some re ∧ compileFormat e.2.Format = .ok re))
        countries reg ∧
      ∀ x, (ParseIBAN up reg x).map Prod.fst = (ParseIBAN up countries x).map Prod.fst := by
  refine ⟨?_, ?_, ?_⟩
  · intro e he
    exact Option.isNone_iff_eq_none.mp (List.all_eq_true.mp countries_re_none e he)
  · refine List.Forall₂.imp ?_ (cacheOK_of_reachable hreg)
    rintro e0 e ⟨hk, hL, hF, hR⟩
    refine ⟨hk, hL, hF, ?_⟩
    cases hre : e.2.re with
    | none => exact Or.inl rfl
    | some re =>
      exact Or.inr ⟨re, rfl, by rw [hF]; exact hR re hre⟩
  · intro x
    obtain ⟨r1, h1, -⟩ := ParseIBAN_reachable hreg x
    obtain ⟨r2, h2, -⟩ := ParseIBAN_reachable (Reachable.init : Reachable up countries) x
    rw [h1, h2]; rfl

/-- C17 at the state a call on `NL91ABNA0417164300` leaves: the Dutch entry
holds its compiled layout, and a fake IBAN is rejected there as in the initial
state. -/
theorem C17_witness :
    ∃ reg1 out, ParseIBAN asciiImages countries "NL91ABNA0417164300".toList =
        some (out, reg1) ∧
      reg1.get "NL".toList = some ⟨18, "U04F10".toList, some [(.U, 4), (.F, 10)]⟩ ∧
      (ParseIBAN asciiImages reg1 "NL30ABNA0123456789".toList).map Prod.fst =
        (ParseIBAN asciiImages countries "NL30ABNA0123456789".toList).map Prod.fst := by
  refine ⟨_, _, rfl, by decide, ?_⟩
  exact (C17_cache_not_observable asciiImages _
    (@Reachable.step asciiImages countries _ "NL91ABNA0417164300".toList _ Reachable.init
      rfl)).2.2 "NL30ABNA0123456789".toList

/-- C18: `ParseIBAN` is total: for every input string, in every registry state,
it returns a result or an error and does not panic.  The header slices
`hs[0:2]` and `hs[2:4]` are taken on a four-character `hs` whenever `hs` is not
empty; every `Length` of the table is at least 4; and on a string of at least
four characters `s[4:]`, `s[:4]` and `validateCheckDigits` are in range. -/
theorem C18_ParseIBAN_total (up : Char → Char) (reg : Registry) (x : List Char) :
    (∃ out reg1, ParseIBAN up reg x = some (out, reg1)) ∧
      (twoUpperTwoDigits.FindString (normalize up x) ≠ [] →
        (slice (twoUpperTwoDigits.FindString (normalize up x)) 0 2).isSome = true ∧
        (slice (twoUpperTwoDigits.FindString (normalize up x)) 2 4).isSome = true ∧
        4 ≤ (normalize up x).length) ∧
      (∀ k cs, countries.get k = some cs → 4 ≤ cs.Length) ∧
      ∀ s : List Char, 4 ≤ s.length →
        (sliceFrom s 4).isSome = true ∧ (sliceTo s 4).isSome = true ∧
        (validateCheckDigits s).isSome = true := by
  refine ⟨?_, ?_, ?_, ?_⟩
  · obtain ⟨⟨out, reg1⟩, h⟩ := Option.isSome_iff_exists.mp (ParseIBAN_isSome up reg x)
    exact ⟨out, reg1, h⟩
  · intro h
    rcases FindString_cases (normalize up x) with hfs | ⟨a, b, c, d, rest, hs, hfs⟩
    · exact absurd hfs h
    · rw [hfs, hs]
      exact ⟨rfl, rfl, by simp⟩
  · intro k cs h
    exact countries_length_ge h
  · intro s hlen
    refine ⟨?_, ?_, validateCheckDigits_isSome hlen⟩
    · simp [sliceFrom, hlen]
    · simp [sliceTo, hlen]

/-- C18 at the empty string and at the three-character string `NL9`, both
shorter than a header: an error is returned. -/
theorem C18_witness :
    (∃ out reg1, ParseIBAN asciiImages countries [] = some (out, reg1)) ∧
      (ParseIBAN asciiImages countries []).map Prod.fst =
        some (.error .errCountryCodeOrCheckDigits) ∧
      (ParseIBAN asciiImages countries "NL9".toList).map Prod.fst =
        some (.error .errCountryCodeOrCheckDigits) :=
  ⟨(C18_ParseIBAN_total asciiImages countries []).1, by decide, by decide⟩

/-- C19: for every input on which `ParseIBAN` succeeds, replacing one digit
character of the returned `Code` (the normalized code) by a different digit
gives an input that still passes the character-set, header, country, length
and BBAN-layout gates and that `ParseIBAN`, called in any reachable registry
state, rejects with `errCheckDigits`. -/
theorem C19_single_digit_error_detected (up : Char → Char) (reg reg1 reg2 : Registry)
    (hreg : Reachable up reg) (hreg2 : Reachable up reg2) (x : List Char) (r : IBAN)
    (h : ParseIBAN up reg x = some (.ok r, reg1)) (pre post : List Char) (d e : Char)
    (hcode : r.Code = pre ++ d :: post) (hd : isDigit d = true) (he : isDigit e = true)
    (hne : e ≠ d) :
    ((pre ++ e :: post).all isNumUpper = true ∧ hasHeader (pre ++ e :: post) = true ∧
      ∃ cs, countries.get ((pre ++ e :: post).take 2) = some cs ∧
        (pre ++ e :: post).length = cs.Length ∧
        matchesLayout cs.Format ((pre ++ e :: post).drop 4) = true) ∧
      ∃ reg3, ParseIBAN up reg2 (pre ++ e :: post) = some (.error .errCheckDigits, reg3) := by
  obtain ⟨hacc, hr⟩ := result_of_ok hreg h
  have hC : r.Code = normalize up x := by rw [hr]
  rw [hcode] at hC
  rw [← hC] at hacc
  obtain ⟨h1, h2, cs, h3, h4, h5, h6⟩ := hacc
  obtain ⟨g2, g3, g5⟩ := gates_replace_digit hd he h2
  have g1 := all_isNumUpper_replace_digit he h1
  have g4 : (pre ++ e :: post).length = cs.Length := by
    rw [← h4]; simp
  have g5' : matchesLayout cs.Format ((pre ++ e :: post).drop 4) = true := by
    unfold matchesLayout at h5 ⊢
    rw [g5]; exact h5
  have g6 := mod97_replace_digit pre post hd he hne h6
  refine ⟨⟨g1, g2, cs, by rw [g3]; exact h3, g4, g5'⟩, ?_⟩
  obtain ⟨reg3, hp, -⟩ := ParseIBAN_reachable hreg2 (pre ++ e :: post)
  refine ⟨reg3, ?_⟩
  rw [hp, normalize_of_all_isNumUpper up g1]
  simp [specParse, g1, g2, g3, h3, g4, g5', g6]

/-- C19 at `NL91ABNA0417164300`, accepted, whose last digit `0` is replaced by
`1`: the altered code is rejected with `errCheckDigits`. -/
theorem C19_witness :
    ∃ reg3, ParseIBAN asciiImages countries "NL91ABNA0417164301".toList =
      some (.error .errCheckDigits, reg3) :=
  (C19_single_digit_error_detected asciiImages countries _ countries Reachable.init
    Reachable.init "NL91ABNA0417164300".toList _ rfl "NL91ABNA041716430".toList [] '0' '1'
    rfl (by decide) (by decide) (by decide)).2

/-- C20: for every registered country code `cc` and every string `b` over
`[0-9A-Z]` that matches that country's layout, with `r` the mod-97 remainder
of the number read from `b ++ cc ++ "00"`: `98 - r` lies between 2 and 98, and
`ParseIBAN(cc ++ dd ++ b)`, with `dd` the two-digit decimal form of `98 - r`,
succeeds in every reachable registry state, returning `cc`, `dd` and `b` as
country code, check digits and BBAN. -/
theorem C20_check_digits_generated (up : Char → Char) (reg : Registry)
    (hreg : Reachable up reg) (cc b : List Char) (cs : countrySettings)
    (hcc : countries.get cc = some cs) (hb : b.all isNumUpper = true)
    (hm : matchesLayout cs.Format b = true) :
    2 ≤ 98 - mod97Number (cc ++ ['0', '0'] ++ b) % 97 ∧
      98 - mod97Number (cc ++ ['0', '0'] ++ b) % 97 ≤ 98 ∧
      generateCheckDigits cc b = twoDigits (98 - mod97Number (cc ++ ['0', '0'] ++ b) % 97) ∧
      ∃ res reg1, ParseIBAN up reg (cc ++ generateCheckDigits cc b ++ b) =
          some (.ok res, reg1) ∧
        res.Code = cc ++ generateCheckDigits cc b ++ b ∧ res.CountryCode = cc ∧
        res.CheckDigits = generateCheckDigits cc b ∧ res.BBAN = b := by
  obtain ⟨a, c, rfl, ha, hc⟩ := countries_key_cases hcc
  have hr : mod97Number ([a, c] ++ ['0', '0'] ++ b) % 97 < 97 := Nat.mod_lt _ (by decide)
  refine ⟨by omega, by omega, by rw [generateCheckDigits], ?_⟩
  have e0 : ('0' : Char) = digitChar 0 := by decide
  have h00 : mod97Number ([a, c] ++ ['0', '0'] ++ b) =
      100 * Nat.ofDigits 10 (((b ++ [a, c]).flatMap letterDigits).reverse) := by
    rw [e0, mod97Number_split a c b (by decide : 0 < 10) (by decide : 0 < 10)]
    omega
  obtain ⟨v, hv⟩ : ∃ v, v = 98 - mod97Number ([a, c] ++ ['0', '0'] ++ b) % 97 := ⟨_, rfl⟩
  have hv1 : v / 10 < 10 := by omega
  have hv2 : v % 10 < 10 := by omega
  have hgen : generateCheckDigits [a, c] b = [digitChar (v / 10), digitChar (v % 10)] := by
    rw [hv, generateCheckDigits, twoDigits]
  have hN := mod97Number_split a c b hv1 hv2
  rw [hgen]
  have g1 : ([a, c] ++ [digitChar (v / 10), digitChar (v % 10)] ++ b).all isNumUpper = true := by
    simp [isNumUpper, ha, hc, isDigit_digitChar hv1, isDigit_digitChar hv2]
    exact fun x hx => by simpa [isNumUpper] using List.all_eq_true.mp hb x hx
  have g2 : hasHeader ([a, c] ++ [digitChar (v / 10), digitChar (v % 10)] ++ b) = true := by
    simp [hasHeader, ha, hc, isDigit_digitChar hv1, isDigit_digitChar hv2]
  obtain ⟨re, -, -, hL⟩ := countries_get_ok hcc
  have g4 : ([a, c] ++ [digitChar (v / 10), digitChar (v % 10)] ++ b).length = cs.Length := by
    have := matchesLayout_length hm
    simp only [List.length_append, List.length_cons, List.length_nil]
    omega
  have g6 : mod97Number ([a, c] ++ [digitChar (v / 10), digitChar (v % 10)] ++ b) % 97 = 1 := by
    rw [hN]; omega
  obtain ⟨reg1, hp, -⟩ := ParseIBAN_reachable hreg
    ([a, c] ++ [digitChar (v / 10), digitChar (v % 10)] ++ b)
  rw [normalize_of_all_isNumUpper up g1] at hp
  have hacc : Accepted ([a, c] ++ [digitChar (v / 10), digitChar (v % 10)] ++ b) :=
    ⟨g1, g2, cs, hcc, g4, hm, g6⟩
  have hok := (specParse_ok_iff _ _).mpr ⟨hacc, rfl⟩
  rw [hok] at hp
  exact ⟨_, reg1, hp, rfl, rfl, rfl, rfl⟩

/-- C20 at the Dutch code and the BBAN `ABNA0417164300`: the remainder is 7,
the generated check digits are `91`, and `NL91ABNA0417164300` is accepted. -/
theorem C20_witness :
    mod97Number "NL00ABNA0417164300".toList % 97 = 7 ∧
      generateCheckDigits "NL".toList "ABNA0417164300".toList = "91".toList ∧
      ∃ res reg1, ParseIBAN asciiImages countries "NL91ABNA0417164300".toList =
        some (.ok res, reg1) := by
  obtain ⟨-, -, -, res, reg1, h, -⟩ := C20_check_digits_generated asciiImages countries
    Reachable.init "NL".toList "ABNA0417164300".toList ⟨18, "U04F10".toList, none⟩
    (by decide) (by decide) (by decide)
  have hg : generateCheckDigits "NL".toList "ABNA0417164300".toList = "91".toList := by decide
  rw [hg] at h
  exact ⟨by decide, hg, res, reg1, h⟩

end Iban
